import Mathlib

/-!
# mtlsort: a shallow embedding of `src/main.c`

`mtlsort` rewrites a Wavefront OBJ text and its MTL text so that the MTL holds
one `newmtl` block per `usemtl` command, in the order of the OBJ. The file
loaders and `main` only read and open files; they are not part of the
embedding.

Modelling conventions.

* A text is the list of the characters of a zero-terminated C string, one
  `Char` per byte, terminator excluded; the end of the list plays the part of
  the terminating zero.
* A pointer into a text is its offset (`Nat`); a pointer that may be null is an
  `Option Nat`, `none` being the null pointer.
* `strstr (s + 1, ..)` is also called when `s` stands on the terminator, which
  reads past the end of the string; such a search is taken to find nothing.
* An output sink is the list of the `fprintf` calls made on it, in order, each
  given by the characters it writes; the bytes of the file are their
  concatenation (`bytes`).
* A failing `assert` ends the run by `abort`; the result lists the `fprintf`
  calls made before it. The sinks are the streams that `main` opens with
  `fopen` and never flushes: they are fully buffered and `abort` does not flush
  them, so after a failed assertion a file holds only the stream buffers that
  were flushed while they filled up (`fileAfterAbort`).
* Loops carry a fuel argument; `Status.outOfFuel` marks a loop that was cut
  short, and the top level supplies one more unit than the length of the text.
* `isblank` and `iscntrl` are those of the C locale; bytes above 127 are
  neither blank nor control.
* Texts are taken shorter than `2 ^ 31` bytes, the range in which the `int` and
  `unsigned` conversions of the source (`nameLen`, `matNumNew`, the precisions
  of `%.*s`) are exact.
* On the last line of the geometry text `sNext` is null and the precision
  `(int)(sNext - s)` depends on the address of `s`. `mtlsortAt addr` is the run
  with the buffer `obj` at the address `addr`, the difference taken in 64 bits
  and cut to 32 bits (`toInt32`). `mtlsort` is the run at an address for which
  that precision is negative, so that the rest of the text is written; the two
  agree at every such address (`mtlsortAt_eq_mtlsort`) and always agree on the
  status and on the material sink (`mtlsortAt_status`).
-/

namespace Mtlsort

/-- Characters of a zero-terminated string, without the terminator. -/
abbrev Text := List Char

/-- C `iscntrl` in the C locale: codes 0 to 31, and 127. -/
def iscntrl (c : Char) : Bool := decide (c.toNat < 32) || c.toNat == 127

/-- C `isblank` in the C locale: space and horizontal tab. -/
def isblank (c : Char) : Bool := c == ' ' || c == '\t'

/-- Membership in the reject set `"\r\n"` of the `strcspn` calls. -/
def isEol (c : Char) : Bool := c == '\r' || c == '\n'

/-- C `strcspn (s, "\r\n")`: length of the longest prefix without CR or LF. -/
def strcspnEol (s : Text) : Nat := (s.takeWhile (fun c => !isEol c)).length

/-- C `strstr (hay, needle)`: offset in `hay` of the first occurrence of
`needle`, `none` for the null pointer. -/
def strstr : Text → Text → Option Nat
  | [], needle => if needle.isPrefixOf [] then some 0 else none
  | c :: cs, needle =>
    if needle.isPrefixOf (c :: cs) then some 0
    else (strstr cs needle).map (· + 1)

/-- The call `strstr (text + start, needle)` with the result as an offset into
`text`. -/
def strstrAt (text : Text) (start : Nat) (needle : Text) : Option Nat :=
  (strstr (text.drop start) needle).map (· + start)

/-- The keyword `"newmtl"`. -/
def newmtlKw : Text := "newmtl".toList

/-- The keyword `"usemtl"`. -/
def usemtlKw : Text := "usemtl".toList

/-- How a run of `mtlsort` ends. -/
inductive Status where
  | completed
  | nameOverflow
  | unresolved
  | outOfFuel
  deriving DecidableEq

/-- The function `nextline` (main.c, lines 74 to 91): the start of the next
line, or the null pointer. -/
def nextline (text : Text) : Option Nat → Option Nat
  | none => none
  | some sOld =>
    if text.drop sOld = [] then none
    else
      let s := sOld + strcspnEol (text.drop sOld)
      if s = sOld then none
      else
        let s := s + ((text.drop s).takeWhile iscntrl).length
        if text.drop s = [] then none else some s

/-- The loop that fills `mat` (main.c, lines 109 and 110):
`for (s = strstr (mtl, "newmtl"); s; s = strstr (s + 1, "newmtl")) mat[matNum++] = s`.
The result is `none` when the fuel runs out. -/
def indexLoop (mtl : Text) : Nat → Option Nat → Option (List Nat)
  | _, none => some []
  | 0, some _ => none
  | fuel + 1, some s =>
    (indexLoop mtl fuel (strstrAt mtl (s + 1) newmtlKw)).map (s :: ·)

/-- The loop that counts the declarations before `calloc` (main.c, lines 105
and 106). -/
def countLoop (mtl : Text) : Nat → Option Nat → Option Nat
  | _, none => some 0
  | 0, some _ => none
  | fuel + 1, some s =>
    (countLoop mtl fuel (strstrAt mtl (s + 1) newmtlKw)).map (· + 1)

/-- The backward search (main.c, lines 142 to 144)
`for (matIdx = matLast; matIdx > -1; --matIdx) if (strstr (mat[matIdx], name)) break;`
started with `matIdx + 1` as argument; `none` stands for `matIdx = -1`. -/
def search (mtl : Text) (mat : List Nat) (name : Text) : Nat → Option Nat
  | 0 => none
  | matIdx + 1 =>
    if (strstr (mtl.drop (mat.getD matIdx 0)) name).isSome then some matIdx
    else search mtl mat name matIdx

/-- The conversion `%.*s` of `fprintf`: a negative precision counts as no
precision. -/
def printPrec (prec : Int) (s : Text) : Text :=
  if prec < 0 then s else s.take prec.toNat

/-- The conversion `%d` for a counter that starts at zero. -/
def printInt (n : Nat) : Text := (Nat.repr n).toList

/-- The write (main.c, lines 146 to 153)
`fprintf (mtlOut, "newmtl mat%d%.*s", matNumNew, (int)(matStrNext - matStr), matStr)`
for the declaration `matIdx`. -/
def declWrite (mtl : Text) (mat : List Nat) (matNumNew matIdx : Nat) : Text :=
  let matStr := mat.getD matIdx 0
  let matStrNext := mat.getD (matIdx + 1) 0
  let matStr := matStr + strcspnEol (mtl.drop matStr)
  "newmtl mat".toList ++ printInt matNumNew ++
    printPrec ((matStrNext : Int) - (matStr : Int)) (mtl.drop matStr)

/-- Start of the name field of the usage whose keyword search returned `s`
(main.c, lines 132 to 134): past the keyword and past blanks and control
characters. -/
def nameStart (obj : Text) (s : Nat) : Nat :=
  let s := s + usemtlKw.length
  s + ((obj.drop s).takeWhile (fun c => isblank c || iscntrl c)).length

/-- Value of `nameLen` (main.c, line 135), the length of the name field with
one more byte. -/
def nameLenAt (obj : Text) (s : Nat) : Nat := strcspnEol (obj.drop s) + 1

/-- The string left in `name` by `memcpy (name, s, nameLen)` (main.c, lines 137
and 138): the name field and the CR or LF after it, or the name field alone when
it runs to the end of the text. -/
def nameAt (obj : Text) (s : Nat) : Text := (obj.drop s).take (nameLenAt obj s)

/-- The loop that writes the new material text (main.c, lines 120 to 155), one
declaration for every keyword found from `obj + 1` on. It returns the writes
made and how the loop ended. -/
def emitLoop (obj mtl : Text) (mat : List Nat) (matNum : Nat) :
    Nat → Option Nat → Nat → List Text × Status
  | _, none, _ => ([], Status.completed)
  | 0, some _, _ => ([], Status.outOfFuel)
  | fuel + 1, some s, matNumNew =>
    if s = 0 then
      emitLoop obj mtl mat matNum fuel (strstrAt obj (s + 1) usemtlKw) matNumNew
    else
      let s := nameStart obj s
      if ¬ nameLenAt obj s < 1024 then ([], Status.nameOverflow)
      else
        match search mtl mat (nameAt obj s) matNum with
        | none => ([], Status.unresolved)
        | some matIdx =>
          let r := emitLoop obj mtl mat matNum fuel
            (strstrAt obj (s + 1) usemtlKw) (matNumNew + 1)
          (declWrite mtl mat matNumNew matIdx :: r.1, r.2)

/-- The write `fprintf (objOut, "%.*s", (int)(sNext - s), s)` (main.c, line
172). On the last line `sNext` is null and the precision depends on the address
of `s`; here it is taken negative or at least as large as the rest of the text,
so that the rest of the text is written. `lineWriteAt` is the write for a given
address. -/
def lineWrite (obj : Text) (s : Nat) : Option Nat → Text
  | none => obj.drop s
  | some sNext => (obj.drop s).take (sNext - s)

/-- The write `fprintf (objOut, "usemtl mat%d\n", matNumNew)`. -/
def usageWrite (matNumNew : Nat) : Text :=
  "usemtl mat".toList ++ printInt matNumNew ++ ['\n']

/-- The loop that writes the new geometry text, line by line (main.c, lines
158 to 173). -/
def objLoop (obj : Text) : Nat → Option Nat → Nat → List Text × Status
  | _, none, _ => ([], Status.completed)
  | 0, some _, _ => ([], Status.outOfFuel)
  | fuel + 1, some s, matNumNew =>
    let sNext := nextline obj (some s)
    if obj.get? s = some '#' then objLoop obj fuel sNext matNumNew
    else if usemtlKw.isPrefixOf (obj.drop s) then
      let r := objLoop obj fuel sNext (matNumNew + 1)
      (usageWrite matNumNew :: r.1, r.2)
    else
      let r := objLoop obj fuel sNext matNumNew
      (lineWrite obj s sNext :: r.1, r.2)

/-- Outcome of a run: how it ended and the writes made on the two sinks. -/
structure Result where
  status : Status
  mtlOut : List Text
  objOut : List Text
  deriving DecidableEq

/-- The array `mat` of a material text: the offsets stored by the filling loop
and the final entry `mtl + strlen (mtl)`; `none` when the fuel runs out. -/
def matOf (mtl : Text) : Option (List Nat) :=
  (indexLoop mtl (mtl.length + 1) (strstr mtl newmtlKw)).map (· ++ [mtl.length])

/-- The material pass of `mtlsort` for a given array `mat`. -/
def mtlPass (obj mtl : Text) (mat : List Nat) : List Text × Status :=
  emitLoop obj mtl mat (mat.length - 1) (obj.length + 1) (some 0) 0

/-- The geometry pass of `mtlsort`. -/
def objPass (obj : Text) : List Text × Status :=
  objLoop obj (obj.length + 1) (some 0) 0

/-- The function `mtlsort` (main.c, lines 93 to 176): the array `mat`, then
the material pass, then the geometry pass, which is reached only when no
assertion of the material pass has failed. -/
def mtlsort (obj mtl : Text) : Result :=
  match matOf mtl with
  | none => ⟨Status.outOfFuel, [], []⟩
  | some mat =>
    let m := mtlPass obj mtl mat
    if m.2 = Status.completed then
      let g := objPass obj
      ⟨g.2, m.1, g.1⟩
    else ⟨m.2, m.1, []⟩

/-- Bytes of a sink: the concatenation of its writes. -/
def bytes (writes : List Text) : Text := writes.flatten

/-! ## Auxiliary definitions used to state the properties -/

/-- The keyword scan of `emitLoop` taken alone: the starts of the name fields of
the usages the loop visits, in order; `none` when the fuel runs out. -/
def scanLoop (obj : Text) : Nat → Option Nat → Option (List Nat)
  | _, none => some []
  | 0, some _ => none
  | fuel + 1, some s =>
    if s = 0 then scanLoop obj fuel (strstrAt obj (s + 1) usemtlKw)
    else
      let s := nameStart obj s
      (scanLoop obj fuel (strstrAt obj (s + 1) usemtlKw)).map (s :: ·)

/-- The writes and the final status of the material pass once the usages are
given as a list of name-field starts. -/
def emitAll (obj mtl : Text) (mat : List Nat) (matNum : Nat) :
    List Nat → Nat → List Text × Status
  | [], _ => ([], Status.completed)
  | s :: rest, matNumNew =>
    if ¬ nameLenAt obj s < 1024 then ([], Status.nameOverflow)
    else
      match search mtl mat (nameAt obj s) matNum with
      | none => ([], Status.unresolved)
      | some matIdx =>
        let r := emitAll obj mtl mat matNum rest (matNumNew + 1)
        (declWrite mtl mat matNumNew matIdx :: r.1, r.2)

/-- Offsets at which `kw` occurs in a text, counted from `off`. -/
def occurrencesFrom (kw : Text) : Text → Nat → List Nat
  | [], _ => []
  | c :: cs, off =>
    if kw.isPrefixOf (c :: cs) then off :: occurrencesFrom kw cs (off + 1)
    else occurrencesFrom kw cs (off + 1)

/-- Usage markers of a geometry text in the words of the specification: every
offset at which the usage keyword begins, in text order. -/
def usageMarkers (obj : Text) : List Nat := occurrencesFrom usemtlKw obj 0

/-- Body of declaration `i` in the words of the specification: the span from
the first line break at or after the keyword of declaration `i` up to the start
of declaration `i + 1`, the last entry of `mat` being the end of the text. -/
def bodySpan (mtl : Text) (mat : List Nat) (i : Nat) : Text :=
  let first := mat.getD i 0 + strcspnEol (mtl.drop (mat.getD i 0))
  (mtl.drop first).take (mat.getD (i + 1) 0 - first)

/-- Length of the first line of a text together with its terminator run: up to
the first CR or LF, then the control characters that follow. -/
def lineLen (t : Text) : Nat :=
  strcspnEol t + ((t.drop (strcspnEol t)).takeWhile iscntrl).length

/-- Lines of a text in the words of the specification, each with its terminator
run; the fuel bounds the number of lines. -/
def geoLinesAux : Nat → Text → List Text
  | 0, _ => []
  | fuel + 1, t =>
    if t = [] then [] else t.take (lineLen t) :: geoLinesAux fuel (t.drop (lineLen t))

/-- Lines of a geometry text, each with its terminator run. -/
def geoLines (t : Text) : List Text := geoLinesAux t.length t

/-- The rewriting of usage lines in the words of the specification: a line that
begins with the usage keyword becomes `usemtl mat<k>` and a line feed, `k`
counting the usage lines before it; any other line is copied. -/
def rewriteLines : Nat → List Text → List Text
  | _, [] => []
  | k, l :: ls =>
    if usemtlKw.isPrefixOf l then usageWrite k :: rewriteLines (k + 1) ls
    else l :: rewriteLines k ls

/-- A line is a comment when it begins with `#`. -/
def isComment (l : Text) : Bool := l.head? == some '#'

/-- A usage fails when its name field is too long for `name` or when the
backward search finds no declaration for it. -/
def usageFails (obj mtl : Text) (mat : List Nat) (matNum : Nat) (s : Nat) : Prop :=
  1024 ≤ nameLenAt obj s ∨ search mtl mat (nameAt obj s) matNum = none

/-- The text begins with CR or LF. -/
def beginsWithEol : Text → Bool
  | [] => false
  | c :: _ => isEol c

/-- Material text of the example of the specification: `A`, then `B`. -/
def mtlAB : Text := "newmtl A\nKd 1 0 0\nnewmtl B\nKd 0 1 0\n".toList

/-- A material text that declares `Wood` and then `DarkWood`. -/
def mtlWood : Text := "newmtl Wood\nKd 1 0 0\nnewmtl DarkWood\nKd 0 0 0\n".toList

/-- Name field in the words of the specification, for the text `t` that follows
a usage keyword: it starts at the first character that is neither blank nor a
control character and runs up to and including the first CR or LF, or to the
end of the text when there is none. -/
def nameField (t : Text) : Text :=
  let t := t.dropWhile (fun c => isblank c || iscntrl c)
  t.takeWhile (fun c => !isEol c) ++ (t.dropWhile (fun c => !isEol c)).take 1

/-- The conversion `(int)` of a 64-bit pointer difference: the value modulo
`2 ^ 32`, read as a signed 32-bit integer. -/
def toInt32 (x : Int) : Int := (x + 2 ^ 31) % 2 ^ 32 - 2 ^ 31

/-- The write `fprintf (objOut, "%.*s", (int)(sNext - s), s)` (main.c, line 172)
when the buffer `obj` is at the address `addr`. On the last line `sNext` is null
and the difference is `0 - (addr + s)`. -/
def lineWriteAt (addr : Nat) (obj : Text) (s : Nat) : Option Nat → Text
  | none => printPrec (toInt32 (0 - ((addr + s : Nat) : Int))) (obj.drop s)
  | some sNext => (obj.drop s).take (sNext - s)

/-- The loop that writes the new geometry text (main.c, lines 158 to 173) when
the buffer `obj` is at the address `addr`. -/
def objLoopAt (addr : Nat) (obj : Text) : Nat → Option Nat → Nat → List Text × Status
  | _, none, _ => ([], Status.completed)
  | 0, some _, _ => ([], Status.outOfFuel)
  | fuel + 1, some s, matNumNew =>
    let sNext := nextline obj (some s)
    if obj.get? s = some '#' then objLoopAt addr obj fuel sNext matNumNew
    else if usemtlKw.isPrefixOf (obj.drop s) then
      let r := objLoopAt addr obj fuel sNext (matNumNew + 1)
      (usageWrite matNumNew :: r.1, r.2)
    else
      let r := objLoopAt addr obj fuel sNext matNumNew
      (lineWriteAt addr obj s sNext :: r.1, r.2)

/-- The geometry pass of `mtlsort` when the buffer `obj` is at the address
`addr`. -/
def objPassAt (addr : Nat) (obj : Text) : List Text × Status :=
  objLoopAt addr obj (obj.length + 1) (some 0) 0

/-- The function `mtlsort` (main.c, lines 93 to 176) when the buffer `obj` is at
the address `addr`. -/
def mtlsortAt (addr : Nat) (obj mtl : Text) : Result :=
  match matOf mtl with
  | none => ⟨Status.outOfFuel, [], []⟩
  | some mat =>
    let m := mtlPass obj mtl mat
    if m.2 = Status.completed then
      let g := objPassAt addr obj
      ⟨g.2, m.1, g.1⟩
    else ⟨m.2, m.1, []⟩

/-- The geometry output in words: over the lines of the text, a line that
begins with `#` is left out, a line that begins with the usage keyword becomes
`usemtl mat<k>`, and any other line is copied, whole unless it is the last line
of the text, of which the first `(int)(0 - s)` bytes are written when that
precision is not negative, `s` being the address of the line. -/
def rewriteGeo (addr objLen : Nat) : Nat → List Text → List Text
  | _, [] => []
  | k, l :: ls =>
    if isComment l then rewriteGeo addr objLen k ls
    else if usemtlKw.isPrefixOf l then usageWrite k :: rewriteGeo addr objLen (k + 1) ls
    else if ls = [] then
      [printPrec (toInt32 (0 - ((addr + (objLen - l.length) : Nat) : Int))) l]
    else l :: rewriteGeo addr objLen k ls

/-- What the file behind a sink may hold once the run has been aborted after
the given writes, for a stream buffer of `cap` bytes: `main` opens the sinks
with `fopen` (main.c, lines 207 and 213), so they are fully buffered, and
`abort` does not flush them. The file holds the buffers flushed so far, `blocks`
of them, and what was written after them, at most one buffer, is lost. -/
def fileAfterAbort (cap : Nat) (writes : List Text) (file : Text) : Prop :=
  ∃ blocks, file = (bytes writes).take (cap * blocks) ∧
    cap * blocks ≤ (bytes writes).length ∧ (bytes writes).length ≤ cap * blocks + cap

/-- A material text with one declaration, `A`, whose body has 45 lines. -/
def mtlLongBody : Text :=
  "newmtl A\n".toList ++ (List.replicate 45 "Kd 1 0 0\n".toList).flatten

/-- A geometry text with eleven usages of `A` and then a usage of `C`. -/
def objElevenUsages : Text :=
  "v\n".toList ++ (List.replicate 11 "usemtl A\n".toList).flatten ++ "usemtl C\n".toList

/-! ## Facts about `strstr` -/

theorem strstr_some {hay needle : Text} {k : Nat} (h : strstr hay needle = some k) :
    needle <+: hay.drop k ∧ k ≤ hay.length ∧ ∀ j, j < k → ¬ needle <+: hay.drop j := by
  induction hay generalizing k with
  | nil =>
    unfold strstr at h
    split at h
    · rename_i hp
      cases h
      exact ⟨by simpa using List.isPrefixOf_iff_prefix.mp hp, Nat.le_refl _, fun j hj => by omega⟩
    · cases h
  | cons c cs ih =>
    unfold strstr at h
    split at h
    · rename_i hp
      cases h
      exact ⟨by simpa using List.isPrefixOf_iff_prefix.mp hp, Nat.zero_le _, fun j hj => by omega⟩
    · rename_i hp
      cases hr : strstr cs needle with
      | none => rw [hr] at h; cases h
      | some k' =>
        rw [hr] at h
        simp only [Option.map_some', Option.some.injEq] at h
        subst h
        obtain ⟨h1, h2, h3⟩ := ih hr
        refine ⟨by simpa using h1, by simpa using h2, ?_⟩
        intro j hj
        cases j with
        | zero =>
          intro hpre
          exact hp (List.isPrefixOf_iff_prefix.mpr (by simpa using hpre))
        | succ j => simpa using h3 j (by omega)

theorem strstr_none {hay needle : Text} (h : strstr hay needle = none) :
    ∀ j, ¬ needle <+: hay.drop j := by
  induction hay with
  | nil =>
    unfold strstr at h
    split at h
    · cases h
    · rename_i hp
      intro j hpre
      exact hp (List.isPrefixOf_iff_prefix.mpr (by simpa using hpre))
  | cons c cs ih =>
    unfold strstr at h
    split at h
    · cases h
    · rename_i hp
      cases hr : strstr cs needle with
      | some k' => rw [hr] at h; cases h
      | none =>
        intro j
        cases j with
        | zero =>
          intro hpre
          exact hp (List.isPrefixOf_iff_prefix.mpr (by simpa using hpre))
        | succ j => simpa using ih hr j

theorem strstr_isSome_iff {hay needle : Text} :
    (strstr hay needle).isSome = true ↔ ∃ j, needle <+: hay.drop j := by
  constructor
  · intro h
    cases hr : strstr hay needle with
    | none => rw [hr] at h; cases h
    | some k => exact ⟨k, (strstr_some hr).1⟩
  · rintro ⟨j, hj⟩
    cases hr : strstr hay needle with
    | none => exact absurd hj (strstr_none hr j)
    | some k => rfl

theorem occurrence_bound {text needle : Text} {p : Nat} (h : needle <+: text.drop p)
    (hne : needle ≠ []) : p + needle.length ≤ text.length := by
  have h1 := h.length_le
  rw [List.length_drop] at h1
  have h2 : 0 < needle.length := List.length_pos.mpr hne
  omega

theorem strstrAt_some {text needle : Text} {start p : Nat}
    (h : strstrAt text start needle = some p) :
    start ≤ p ∧ needle <+: text.drop p ∧
      ∀ j, start ≤ j → j < p → ¬ needle <+: text.drop j := by
  unfold strstrAt at h
  cases hr : strstr (text.drop start) needle with
  | none => rw [hr] at h; cases h
  | some k =>
    rw [hr] at h
    simp only [Option.map_some', Option.some.injEq] at h
    subst h
    obtain ⟨h1, _, h3⟩ := strstr_some hr
    rw [List.drop_drop] at h1
    refine ⟨by omega, by simpa [Nat.add_comm] using h1, ?_⟩
    intro j hj1 hj2
    have := h3 (j - start) (by omega)
    rw [List.drop_drop] at this
    rwa [show start + (j - start) = j by omega] at this

theorem strstrAt_none {text needle : Text} {start : Nat}
    (h : strstrAt text start needle = none) :
    ∀ j, start ≤ j → ¬ needle <+: text.drop j := by
  unfold strstrAt at h
  cases hr : strstr (text.drop start) needle with
  | some k => rw [hr] at h; cases h
  | none =>
    intro j hj
    have := strstr_none hr (j - start)
    rw [List.drop_drop] at this
    rwa [show start + (j - start) = j by omega] at this

theorem newmtlKw_ne_nil : newmtlKw ≠ [] := by decide

theorem usemtlKw_ne_nil : usemtlKw ≠ [] := by decide

theorem usemtlKw_length : usemtlKw.length = 6 := by decide

/-! ## The declaration indexer -/

/-- With enough fuel the filling loop started by a search from `start` returns
the occurrences of the keyword from `start` on, in increasing order. -/
theorem indexLoop_spec (mtl : Text) :
    ∀ (fuel start : Nat), mtl.length + 1 ≤ fuel + start →
      ∃ occ, indexLoop mtl fuel (strstrAt mtl start newmtlKw) = some occ ∧
        countLoop mtl fuel (strstrAt mtl start newmtlKw) = some occ.length ∧
        occ.Pairwise (· < ·) ∧
        ∀ p, p ∈ occ ↔ (start ≤ p ∧ newmtlKw <+: mtl.drop p) := by
  intro fuel
  induction fuel with
  | zero =>
    intro start hf
    cases hs : strstrAt mtl start newmtlKw with
    | none =>
      refine ⟨[], by simp [indexLoop], by simp [countLoop], List.Pairwise.nil, ?_⟩
      intro p
      simp only [List.not_mem_nil, false_iff, not_and]
      exact fun hp => strstrAt_none hs p hp
    | some s =>
      obtain ⟨h1, h2, _⟩ := strstrAt_some hs
      have := occurrence_bound h2 newmtlKw_ne_nil
      omega
  | succ fuel ih =>
    intro start hf
    cases hs : strstrAt mtl start newmtlKw with
    | none =>
      refine ⟨[], by simp [indexLoop], by simp [countLoop], List.Pairwise.nil, ?_⟩
      intro p
      simp only [List.not_mem_nil, false_iff, not_and]
      exact fun hp => strstrAt_none hs p hp
    | some s =>
      obtain ⟨h1, h2, h3⟩ := strstrAt_some hs
      obtain ⟨occ, e1, e2, e3, e4⟩ := ih (s + 1) (by omega)
      refine ⟨s :: occ, by simp [indexLoop, e1], by simp [countLoop, e2], ?_, ?_⟩
      · rw [List.pairwise_cons]
        refine ⟨fun a ha => ?_, e3⟩
        have := ((e4 a).mp ha).1
        omega
      · intro p
        rw [List.mem_cons, e4]
        constructor
        · rintro (rfl | ⟨hp1, hp2⟩)
          · exact ⟨h1, h2⟩
          · exact ⟨by omega, hp2⟩
        · rintro ⟨hp1, hp2⟩
          by_cases hps : p = s
          · exact Or.inl hps
          · right
            refine ⟨?_, hp2⟩
            by_contra hlt
            exact h3 p hp1 (by omega) hp2

theorem strstrAt_zero (text needle : Text) : strstrAt text 0 needle = strstr text needle := by
  unfold strstrAt
  rw [List.drop_zero]
  cases strstr text needle <;> rfl

/-- The array `mat`: the occurrences of the keyword in increasing order, then
the length of the text. -/
theorem matOf_spec (mtl : Text) :
    ∃ occ, matOf mtl = some (occ ++ [mtl.length]) ∧
      countLoop mtl (mtl.length + 1) (strstr mtl newmtlKw) = some occ.length ∧
      (occ ++ [mtl.length]).Pairwise (· < ·) ∧
      ∀ p, p ∈ occ ↔ newmtlKw <+: mtl.drop p := by
  obtain ⟨occ, e1, e2, e3, e4⟩ := indexLoop_spec mtl (mtl.length + 1) 0 (by omega)
  rw [strstrAt_zero] at e1 e2
  refine ⟨occ, by simp [matOf, e1], e2, ?_, fun p => by simpa using e4 p⟩
  rw [List.pairwise_append]
  refine ⟨e3, by simp, ?_⟩
  intro a ha b hb
  simp only [List.mem_singleton] at hb
  subst hb
  have := occurrence_bound ((e4 a).mp ha).2 newmtlKw_ne_nil
  have hk : newmtlKw.length = 6 := by decide
  omega


/-! ## The backward search -/

theorem search_some {mtl : Text} {mat : List Nat} {name : Text} :
    ∀ {k i : Nat}, search mtl mat name k = some i →
      i < k ∧ (strstr (mtl.drop (mat.getD i 0)) name).isSome = true ∧
        ∀ j, i < j → j < k → (strstr (mtl.drop (mat.getD j 0)) name).isSome = false := by
  intro k
  induction k with
  | zero => intro i h; simp [search] at h
  | succ k ih =>
    intro i h
    unfold search at h
    split at h
    · rename_i hs
      simp only [Option.some.injEq] at h
      subst h
      exact ⟨by omega, hs, fun j h1 h2 => by omega⟩
    · rename_i hs
      obtain ⟨h1, h2, h3⟩ := ih h
      refine ⟨by omega, h2, fun j hj1 hj2 => ?_⟩
      by_cases hjk : j = k
      · subst hjk; simpa using hs
      · exact h3 j hj1 (by omega)

theorem search_none {mtl : Text} {mat : List Nat} {name : Text} :
    ∀ {k : Nat}, search mtl mat name k = none →
      ∀ j, j < k → (strstr (mtl.drop (mat.getD j 0)) name).isSome = false := by
  intro k
  induction k with
  | zero => intro _ j hj; omega
  | succ k ih =>
    intro h j hj
    unfold search at h
    split at h
    · cases h
    · rename_i hs
      by_cases hjk : j = k
      · subst hjk; simpa using hs
      · exact ih h j (by omega)

theorem search_eq_some {mtl : Text} {mat : List Nat} {name : Text} {i : Nat} :
    ∀ {k : Nat}, i < k → (strstr (mtl.drop (mat.getD i 0)) name).isSome = true →
      (∀ j, i < j → j < k → (strstr (mtl.drop (mat.getD j 0)) name).isSome = false) →
      search mtl mat name k = some i := by
  intro k
  induction k with
  | zero => intro h; omega
  | succ k ih =>
    intro hik hi hj
    unfold search
    by_cases hk : i = k
    · subst hk; rw [if_pos hi]
    · have := hj k (by omega) (by omega)
      simp only [this, Bool.false_eq_true, ↓reduceIte]
      exact ih (by omega) hi (fun j h1 h2 => hj j h1 (by omega))

theorem getD_append_left (occ : List Nat) (n : Nat) {j : Nat} (hj : j < occ.length) :
    (occ ++ [n]).getD j 0 = occ[j] := by
  rw [List.getD_eq_getElem?_getD, List.getElem?_append_left hj, List.getElem?_eq_getElem hj]
  rfl

/-- The search fails exactly when the name occurs nowhere at or after a
declaration keyword. -/
theorem search_none_iff {mtl : Text} {occ : List Nat} (name : Text)
    (hocc : ∀ p, p ∈ occ ↔ newmtlKw <+: mtl.drop p) :
    search mtl (occ ++ [mtl.length]) name occ.length = none ↔
      ¬ ∃ p q, newmtlKw <+: mtl.drop p ∧ p ≤ q ∧ name <+: mtl.drop q := by
  constructor
  · intro h
    rintro ⟨p, q, hp, hpq, hq⟩
    obtain ⟨j, hj, rfl⟩ := List.getElem_of_mem ((hocc p).mpr hp)
    have hn := search_none h j hj
    rw [getD_append_left occ _ hj] at hn
    have hs : (strstr (mtl.drop occ[j]) name).isSome = true := by
      rw [strstr_isSome_iff]
      refine ⟨q - occ[j], ?_⟩
      rw [List.drop_drop, show occ[j] + (q - occ[j]) = q by omega]
      exact hq
    rw [hs] at hn
    cases hn
  · intro h
    cases hr : search mtl (occ ++ [mtl.length]) name occ.length with
    | none => rfl
    | some i =>
      exfalso
      obtain ⟨hi, hs, _⟩ := search_some hr
      rw [getD_append_left occ _ hi, strstr_isSome_iff] at hs
      obtain ⟨j, hj⟩ := hs
      rw [List.drop_drop] at hj
      exact h ⟨occ[i], occ[i] + j, (hocc _).mp (List.getElem_mem _), by omega, hj⟩

/-- Occurring at or after some declaration keyword is occurring at or after
the first one. -/
theorem occurs_after_first_iff (mtl name : Text) :
    (∃ p q, newmtlKw <+: mtl.drop p ∧ p ≤ q ∧ name <+: mtl.drop q) ↔
      ∃ p q, strstr mtl newmtlKw = some p ∧ p ≤ q ∧ name <+: mtl.drop q := by
  constructor
  · rintro ⟨p, q, hp, hpq, hq⟩
    cases hs : strstr mtl newmtlKw with
    | none => exact absurd hp (strstr_none hs p)
    | some p0 =>
      refine ⟨p0, q, rfl, ?_, hq⟩
      have hmin := (strstr_some hs).2.2
      by_contra hlt
      exact hmin p (by omega) hp
  · rintro ⟨p, q, hp, hpq, hq⟩
    exact ⟨p, q, (strstr_some hp).1, hpq, hq⟩

/-! ## The material pass -/

theorem nameStart_ge (obj : Text) (s : Nat) : s + 6 ≤ nameStart obj s := by
  simp only [nameStart, usemtlKw_length]
  omega

/-- With enough fuel the keyword scan ends. -/
theorem scanLoop_adequate (obj : Text) :
    ∀ (fuel : Nat) (s : Option Nat),
      (∀ p, s = some p → p ≤ obj.length ∧ obj.length + 1 ≤ fuel + p) →
      ∃ us, scanLoop obj fuel s = some us := by
  intro fuel
  induction fuel with
  | zero =>
    intro s hs
    cases s with
    | none => exact ⟨[], by simp [scanLoop]⟩
    | some p => have := hs p rfl; omega
  | succ fuel ih =>
    intro s hs
    cases s with
    | none => exact ⟨[], by simp [scanLoop]⟩
    | some p =>
      obtain ⟨hp1, hp2⟩ := hs p rfl
      have step : ∀ q, p ≤ q → ∃ us, scanLoop obj fuel (strstrAt obj (q + 1) usemtlKw) = some us := by
        intro q hq
        apply ih
        intro p' hp'
        obtain ⟨h1, h2, _⟩ := strstrAt_some hp'
        have := occurrence_bound h2 usemtlKw_ne_nil
        omega
      unfold scanLoop
      by_cases h0 : p = 0
      · simp only [h0, ↓reduceIte]
        exact step 0 (by omega)
      · simp only [h0, ↓reduceIte]
        obtain ⟨us, hus⟩ := step (nameStart obj p) (by have := nameStart_ge obj p; omega)
        exact ⟨nameStart obj p :: us, by simp [hus]⟩

/-- The material loop does what `emitAll` does on the usages of the scan. -/
theorem emitLoop_eq_emitAll (obj mtl : Text) (mat : List Nat) (matNum : Nat) :
    ∀ (fuel : Nat) (s : Option Nat) (n : Nat) (us : List Nat),
      scanLoop obj fuel s = some us →
      emitLoop obj mtl mat matNum fuel s n = emitAll obj mtl mat matNum us n := by
  intro fuel
  induction fuel with
  | zero =>
    intro s n us h
    cases s with
    | none =>
      simp only [scanLoop, Option.some.injEq] at h
      subst h
      simp [emitLoop, emitAll]
    | some p => simp [scanLoop] at h
  | succ fuel ih =>
    intro s n us h
    cases s with
    | none =>
      simp only [scanLoop, Option.some.injEq] at h
      subst h
      simp [emitLoop, emitAll]
    | some p =>
      unfold scanLoop at h
      unfold emitLoop
      by_cases h0 : p = 0
      · simp only [h0, ↓reduceIte] at h ⊢
        exact ih _ n us h
      · simp only [h0, ↓reduceIte] at h ⊢
        cases hr : scanLoop obj fuel (strstrAt obj (nameStart obj p + 1) usemtlKw) with
        | none => rw [hr] at h; cases h
        | some us' =>
          rw [hr] at h
          simp only [Option.map_some', Option.some.injEq] at h
          subst h
          unfold emitAll
          split
          · rfl
          · cases hsr : search mtl mat (nameAt obj (nameStart obj p)) matNum with
            | none => rfl
            | some i =>
              simp only
              rw [ih _ (n + 1) us' hr]

theorem emitAll_status (obj mtl : Text) (mat : List Nat) (matNum : Nat) :
    ∀ (us : List Nat) (n : Nat),
      ((emitAll obj mtl mat matNum us n).2 = Status.completed ∧
          ∀ s ∈ us, ¬ usageFails obj mtl mat matNum s) ∨
      (((emitAll obj mtl mat matNum us n).2 = Status.nameOverflow ∨
          (emitAll obj mtl mat matNum us n).2 = Status.unresolved) ∧
          ∃ s ∈ us, usageFails obj mtl mat matNum s) := by
  intro us
  induction us with
  | nil => intro n; left; simp [emitAll]
  | cons s rest ih =>
    intro n
    unfold emitAll
    by_cases hlen : nameLenAt obj s < 1024
    · simp only [hlen, not_true_eq_false, ↓reduceIte]
      cases hsr : search mtl mat (nameAt obj s) matNum with
      | none =>
        right
        exact ⟨Or.inr rfl, s, List.mem_cons_self _ _, Or.inr hsr⟩
      | some i =>
        simp only
        rcases ih (n + 1) with ⟨h1, h2⟩ | ⟨h1, s', hs', h2⟩
        · left
          refine ⟨h1, ?_⟩
          intro s' hs'
          rcases List.mem_cons.mp hs' with rfl | hm
          · rintro (h | h)
            · omega
            · rw [hsr] at h; cases h
          · exact h2 s' hm
        · right
          exact ⟨h1, s', List.mem_cons_of_mem _ hs', h2⟩
    · rw [if_pos hlen]
      right
      exact ⟨Or.inl rfl, s, List.mem_cons_self _ _, Or.inl (by omega)⟩


/-! ## Lines of the geometry text -/

theorem length_takeWhile_le' (p : Char → Bool) (l : Text) :
    (l.takeWhile p).length ≤ l.length := by
  induction l with
  | nil => simp
  | cons a l ih =>
    rw [List.takeWhile_cons]
    split
    · simp only [List.length_cons]; omega
    · simp

theorem drop_length_takeWhile (p : Char → Bool) (l : Text) :
    l.drop (l.takeWhile p).length = l.dropWhile p := by
  induction l with
  | nil => simp
  | cons a l ih =>
    rw [List.takeWhile_cons, List.dropWhile_cons]
    split <;> simp [ih]

theorem isEol_iscntrl {c : Char} (h : isEol c = true) : iscntrl c = true := by
  unfold isEol at h
  simp only [Bool.or_eq_true, beq_iff_eq] at h
  rcases h with rfl | rfl <;> decide

theorem strcspnEol_le (t : Text) : strcspnEol t ≤ t.length :=
  length_takeWhile_le' _ t

theorem strcspnEol_pos (c : Char) (cs : Text) (h : isEol c = false) :
    0 < strcspnEol (c :: cs) := by
  simp [strcspnEol, List.takeWhile_cons, h]

theorem strcspnEol_eol (c : Char) (cs : Text) (h : isEol c = true) :
    strcspnEol (c :: cs) = 0 := by
  simp [strcspnEol, List.takeWhile_cons, h]

theorem lineLen_le (t : Text) : lineLen t ≤ t.length := by
  unfold lineLen
  have h1 := strcspnEol_le t
  have h2 := length_takeWhile_le' iscntrl (t.drop (strcspnEol t))
  rw [List.length_drop] at h2
  omega

theorem lineLen_pos {t : Text} (h : t ≠ []) : 0 < lineLen t := by
  cases t with
  | nil => exact absurd rfl h
  | cons c cs =>
    unfold lineLen
    cases hc : isEol c with
    | false => have := strcspnEol_pos c cs hc; omega
    | true =>
      rw [strcspnEol_eol c cs hc, List.drop_zero, List.takeWhile_cons, if_pos (isEol_iscntrl hc)]
      simp

/-- The text left after a line and its terminator run does not begin with a
control character. -/
theorem head_drop_lineLen (t : Text) (c : Char)
    (h : (t.drop (lineLen t)).head? = some c) : iscntrl c = false := by
  unfold lineLen at h
  rw [← List.drop_drop, drop_length_takeWhile] at h
  have := List.head?_dropWhile_not iscntrl (t.drop (strcspnEol t))
  rw [h] at this
  simpa using this

theorem nextline_eq (obj : Text) (s : Nat) :
    nextline obj (some s) =
      if obj.drop s = [] then none
      else if strcspnEol (obj.drop s) = 0 then none
      else if (obj.drop s).drop (lineLen (obj.drop s)) = [] then none
      else some (s + lineLen (obj.drop s)) := by
  simp only [nextline]
  by_cases h1 : obj.drop s = []
  · simp [h1]
  · rw [if_neg h1, if_neg h1]
    by_cases h2 : strcspnEol (obj.drop s) = 0
    · simp [h2]
    · have h2' : ¬ s + strcspnEol (obj.drop s) = s := by omega
      rw [if_neg h2, if_neg h2']
      simp only [lineLen, List.drop_drop, Nat.add_assoc]

theorem nextline_some {obj : Text} {s s' : Nat} (h : nextline obj (some s) = some s') :
    s < s' ∧ s' < obj.length := by
  rw [nextline_eq] at h
  split at h
  · cases h
  · rename_i h1
    split at h
    · cases h
    · split at h
      · cases h
      · rename_i h2 h3
        simp only [Option.some.injEq] at h
        subst h
        have hp := lineLen_pos h1
        rw [List.drop_drop] at h3
        have : ¬ obj.length ≤ s + lineLen (obj.drop s) := fun hle =>
          h3 (List.drop_eq_nil_iff.mpr hle)
        omega

/-- With enough fuel the geometry loop ends. -/
theorem objLoop_completes (obj : Text) :
    ∀ (fuel : Nat) (s : Option Nat) (k : Nat),
      (∀ p, s = some p → p ≤ obj.length ∧ obj.length + 1 ≤ fuel + p) →
      (objLoop obj fuel s k).2 = Status.completed := by
  intro fuel
  induction fuel with
  | zero =>
    intro s k hs
    cases s with
    | none => simp [objLoop]
    | some p => have := hs p rfl; omega
  | succ fuel ih =>
    intro s k hs
    cases s with
    | none => simp [objLoop]
    | some p =>
      obtain ⟨hp1, hp2⟩ := hs p rfl
      have step : ∀ k', (objLoop obj fuel (nextline obj (some p)) k').2 = Status.completed := by
        intro k'
        apply ih
        intro p' hp'
        have := nextline_some hp'
        omega
      unfold objLoop
      simp only
      split
      · exact step k
      · split
        · exact step (k + 1)
        · exact step k

theorem geoLinesAux_fuel :
    ∀ (f g : Nat) (t : Text), t.length ≤ f → t.length ≤ g →
      geoLinesAux f t = geoLinesAux g t := by
  intro f
  induction f with
  | zero =>
    intro g t hf hg
    have ht : t = [] := List.length_eq_zero.mp (by omega)
    subst ht
    cases g <;> simp [geoLinesAux]
  | succ f ih =>
    intro g t hf hg
    cases g with
    | zero =>
      have ht : t = [] := List.length_eq_zero.mp (by omega)
      subst ht
      simp [geoLinesAux]
    | succ g =>
      unfold geoLinesAux
      by_cases ht : t = []
      · simp [ht]
      · rw [if_neg ht, if_neg ht]
        have hp := lineLen_pos ht
        have hl : 0 < t.length := List.length_pos.mpr ht
        rw [ih g (t.drop (lineLen t)) (by rw [List.length_drop]; omega)
          (by rw [List.length_drop]; omega)]

theorem geoLines_nil : geoLines [] = [] := by
  simp [geoLines, geoLinesAux]

theorem geoLines_of_ne_nil {t : Text} (ht : t ≠ []) :
    geoLines t = t.take (lineLen t) :: geoLines (t.drop (lineLen t)) := by
  have hl : 0 < t.length := List.length_pos.mpr ht
  have hp := lineLen_pos ht
  obtain ⟨n, hn⟩ : ∃ n, t.length = n + 1 := ⟨t.length - 1, by omega⟩
  have e1 : geoLines t = geoLinesAux (n + 1) t := by rw [geoLines, hn]
  rw [e1, geoLinesAux, if_neg ht]
  congr 1
  exact geoLinesAux_fuel _ _ _ (by rw [List.length_drop]; omega) (Nat.le_refl _)


/-! ## The geometry pass, line by line -/

theorem usemtl_le_lineLen {t : Text} (h : usemtlKw <+: t) : usemtlKw.length ≤ lineLen t := by
  obtain ⟨r, rfl⟩ := h
  have hall : ∀ c ∈ usemtlKw, (fun c => !isEol c) c = true := by decide
  have : strcspnEol (usemtlKw ++ r) = usemtlKw.length + strcspnEol r := by
    unfold strcspnEol
    rw [List.takeWhile_append_of_pos hall, List.length_append]
  unfold lineLen
  omega

theorem usemtl_line (t : Text) :
    usemtlKw.isPrefixOf (t.take (lineLen t)) = usemtlKw.isPrefixOf t := by
  rw [Bool.eq_iff_iff, List.isPrefixOf_iff_prefix, List.isPrefixOf_iff_prefix,
    List.prefix_take_iff]
  exact ⟨fun h => h.1, fun h => ⟨h, usemtl_le_lineLen h⟩⟩

theorem isComment_line {t : Text} (ht : t ≠ []) :
    isComment (t.take (lineLen t)) = isComment t := by
  have hp := lineLen_pos ht
  cases t with
  | nil => exact absurd rfl ht
  | cons c cs =>
    obtain ⟨n, hn⟩ : ∃ n, lineLen (c :: cs) = n + 1 := ⟨lineLen (c :: cs) - 1, by omega⟩
    rw [hn]
    simp [isComment]

theorem get?_eq_isComment (obj : Text) (s : Nat) :
    (obj.get? s = some '#') ↔ isComment (obj.drop s) = true := by
  simp [isComment, List.head?_drop, List.get?_eq_getElem?]

theorem bytes_cons (w : Text) (ws : List Text) : bytes (w :: ws) = w ++ bytes ws := by
  simp [bytes]

/-- From a line start on, the bytes written by the geometry loop are those of
the lines of the specification with the comment lines left out and the usage
lines rewritten. -/
theorem objLoop_lines (obj : Text) :
    ∀ (fuel s k : Nat), s ≤ obj.length → obj.length + 1 ≤ fuel + s →
      (∀ c, (obj.drop s).head? = some c → isEol c = false) →
      bytes (objLoop obj fuel (some s) k).1 =
        bytes (rewriteLines k ((geoLines (obj.drop s)).filter (fun l => !isComment l))) := by
  intro fuel
  induction fuel with
  | zero => intro s k h1 h2; omega
  | succ fuel ih =>
    intro s k hs hf hhead
    by_cases hrest : obj.drop s = []
    · -- the end of the text: one empty write
      have hnl : nextline obj (some s) = none := by rw [nextline_eq, if_pos hrest]
      have hget : ¬ obj.get? s = some '#' := by
        rw [get?_eq_isComment, hrest]; decide
      unfold objLoop
      simp only [hnl, hget, ↓reduceIte, hrest]
      rw [show usemtlKw.isPrefixOf ([] : Text) = false by decide]
      simp [objLoop, lineWrite, hrest, geoLines_nil, rewriteLines, bytes]
    · -- a line
      have hne : strcspnEol (obj.drop s) ≠ 0 := by
        cases hd : obj.drop s with
        | nil => exact absurd hd hrest
        | cons c cs =>
          have hc := hhead c (by rw [hd]; rfl)
          have := strcspnEol_pos c cs hc
          omega
      have hpos := lineLen_pos hrest
      have hle := lineLen_le (obj.drop s)
      rw [List.length_drop] at hle
      -- what follows the line
      have key : ∀ k', bytes (objLoop obj fuel (nextline obj (some s)) k').1 =
          bytes (rewriteLines k' ((geoLines ((obj.drop s).drop (lineLen (obj.drop s)))).filter
            (fun l => !isComment l))) := by
        intro k'
        rw [nextline_eq, if_neg hrest, if_neg hne]
        by_cases hend : (obj.drop s).drop (lineLen (obj.drop s)) = []
        · rw [if_pos hend, hend]
          cases fuel <;> simp [objLoop, geoLines_nil, rewriteLines, bytes]
        · rw [if_neg hend]
          have hlt : s + lineLen (obj.drop s) < obj.length := by
            rw [List.drop_drop] at hend
            by_contra hge
            exact hend (List.drop_eq_nil_iff.mpr (by omega))
          rw [ih (s + lineLen (obj.drop s)) k' (by omega) (by omega), List.drop_drop]
          intro c hc
          rw [← List.drop_drop] at hc
          have hcn := head_drop_lineLen _ c hc
          cases he : isEol c with
          | false => rfl
          | true => rw [isEol_iscntrl he] at hcn; cases hcn
      -- the write of the line
      have hline : lineWrite obj s (nextline obj (some s)) =
          (obj.drop s).take (lineLen (obj.drop s)) := by
        rw [nextline_eq, if_neg hrest, if_neg hne]
        by_cases hend : (obj.drop s).drop (lineLen (obj.drop s)) = []
        · rw [if_pos hend]
          simp only [lineWrite]
          rw [List.drop_eq_nil_iff] at hend
          exact (List.take_of_length_le hend).symm
        · rw [if_neg hend]
          simp only [lineWrite]
          rw [show s + lineLen (obj.drop s) - s = lineLen (obj.drop s) by omega]
      rw [geoLines_of_ne_nil hrest]
      unfold objLoop
      simp only
      by_cases hcom : isComment (obj.drop s) = true
      · rw [if_pos ((get?_eq_isComment obj s).mpr hcom), key k]
        rw [List.filter_cons_of_neg (by rw [isComment_line hrest, hcom]; decide)]
      · rw [if_neg (fun h => hcom ((get?_eq_isComment obj s).mp h))]
        rw [List.filter_cons_of_pos (by rw [isComment_line hrest]; simpa using hcom)]
        unfold rewriteLines
        rw [usemtl_line]
        by_cases hu : usemtlKw.isPrefixOf (obj.drop s) = true
        · rw [if_pos hu, if_pos hu, bytes_cons, bytes_cons, key (k + 1)]
        · rw [if_neg hu, if_neg hu, bytes_cons, bytes_cons, key k, hline]


/-! ## The whole run -/

/-- A run that stops early has written a declaration for each usage before the
first failing one, and nothing else. -/
theorem emitAll_abort (obj mtl : Text) (mat : List Nat) (matNum : Nat) :
    ∀ (us : List Nat) (n : Nat),
      (emitAll obj mtl mat matNum us n).2 ≠ Status.completed →
      ∃ pre s post, us = pre ++ s :: post ∧ usageFails obj mtl mat matNum s ∧
        (∀ u ∈ pre, ¬ usageFails obj mtl mat matNum u) ∧
        (emitAll obj mtl mat matNum us n).1.length = pre.length ∧
        ∀ k, k < pre.length →
          ∃ i, search mtl mat (nameAt obj (pre.getD k 0)) matNum = some i ∧
            (emitAll obj mtl mat matNum us n).1[k]? = some (declWrite mtl mat (n + k) i) := by
  intro us
  induction us with
  | nil => intro n h; simp [emitAll] at h
  | cons s rest ih =>
    intro n h
    unfold emitAll at h ⊢
    by_cases hlen : nameLenAt obj s < 1024
    · rw [if_neg (not_not.mpr hlen)] at h ⊢
      cases hsr : search mtl mat (nameAt obj s) matNum with
      | none =>
        exact ⟨[], s, rest, rfl, Or.inr hsr, by simp, by simp, fun k hk => by simp at hk⟩
      | some i =>
        rw [hsr] at h
        simp only at h ⊢
        obtain ⟨pre, s', post, e1, e2, e3, e4, e5⟩ := ih (n + 1) h
        refine ⟨s :: pre, s', post, by rw [e1]; rfl, e2, ?_, by simp [e4], ?_⟩
        · intro u hu
          rcases List.mem_cons.mp hu with rfl | hm
          · rintro (hf | hf)
            · omega
            · rw [hsr] at hf; cases hf
          · exact e3 u hm
        · intro k hk
          cases k with
          | zero => exact ⟨i, by simpa using hsr, by simp⟩
          | succ k =>
            obtain ⟨j, hj1, hj2⟩ := e5 k (by simpa using hk)
            refine ⟨j, by simpa using hj1, ?_⟩
            rw [List.getElem?_cons_succ, hj2, show n + 1 + k = n + (k + 1) by omega]
    · rw [if_pos hlen] at h ⊢
      exact ⟨[], s, rest, rfl, Or.inl (by omega), by simp, by simp, fun k hk => by simp at hk⟩

/-- The run of `mtlsort` in terms of the array `mat`, the usages of the scan and
`emitAll`. -/
theorem mtlsort_eq (obj mtl : Text) :
    ∃ occ us, matOf mtl = some (occ ++ [mtl.length]) ∧
      scanLoop obj (obj.length + 1) (some 0) = some us ∧
      (∀ p, p ∈ occ ↔ newmtlKw <+: mtl.drop p) ∧
      mtlsort obj mtl =
        if (emitAll obj mtl (occ ++ [mtl.length]) occ.length us 0).2 = Status.completed then
          ⟨Status.completed, (emitAll obj mtl (occ ++ [mtl.length]) occ.length us 0).1,
            (objPass obj).1⟩
        else
          ⟨(emitAll obj mtl (occ ++ [mtl.length]) occ.length us 0).2,
            (emitAll obj mtl (occ ++ [mtl.length]) occ.length us 0).1, []⟩ := by
  obtain ⟨occ, hmat, _, _, hocc⟩ := matOf_spec mtl
  obtain ⟨us, hus⟩ := scanLoop_adequate obj (obj.length + 1) (some 0)
    (fun p hp => by cases hp; omega)
  refine ⟨occ, us, hmat, hus, hocc, ?_⟩
  have hg : (objPass obj).2 = Status.completed :=
    objLoop_completes obj (obj.length + 1) (some 0) 0 (fun p hp => by cases hp; omega)
  have hm : mtlPass obj mtl (occ ++ [mtl.length]) =
      emitAll obj mtl (occ ++ [mtl.length]) occ.length us 0 := by
    unfold mtlPass
    rw [show (occ ++ [mtl.length]).length - 1 = occ.length by simp]
    exact emitLoop_eq_emitAll obj mtl _ _ _ _ 0 us hus
  unfold mtlsort
  rw [hmat]
  simp only [hm, hg]


theorem getD_eq_getElem' (mat : List Nat) {j : Nat} (hj : j < mat.length) :
    mat.getD j 0 = mat[j] := by
  rw [List.getD_eq_getElem?_getD, List.getElem?_eq_getElem hj]
  rfl

theorem pairwise_getD_le {mat : List Nat} (hs : mat.Pairwise (· < ·)) {a b : Nat}
    (hab : a ≤ b) (hb : b < mat.length) : mat.getD a 0 ≤ mat.getD b 0 := by
  rw [getD_eq_getElem' mat hb, getD_eq_getElem' mat (by omega)]
  rcases Nat.eq_or_lt_of_le hab with rfl | hlt
  · exact Nat.le_refl _
  · exact Nat.le_of_lt (List.pairwise_iff_getElem.mp hs a b (by omega) hb hlt)

/-- The backward search stops at a declaration whose header carries the name
when the name is not found from the next declaration on. -/
theorem search_header {mtl name : Text} {mat : List Nat} {i : Nat}
    (hmat : matOf mtl = some mat) (hi : i + 1 < mat.length)
    (hhdr : (newmtlKw ++ ' ' :: name) <+: mtl.drop (mat.getD i 0))
    (hlater : strstr (mtl.drop (mat.getD (i + 1) 0)) name = none) :
    search mtl mat name (mat.length - 1) = some i := by
  obtain ⟨occ, hocc, _, hsorted, _⟩ := matOf_spec mtl
  rw [hmat, Option.some.injEq] at hocc
  rw [← hocc] at hsorted
  apply search_eq_some (by omega)
  · rw [strstr_isSome_iff]
    refine ⟨7, ?_⟩
    obtain ⟨r, hr⟩ := hhdr
    rw [← hr]
    exact ⟨r, by simp [newmtlKw]⟩
  · intro j hj1 hj2
    cases hs : strstr (mtl.drop (mat.getD j 0)) name with
    | none => rfl
    | some k =>
      exfalso
      have h1 := (strstr_some hs).1
      have hle := pairwise_getD_le hsorted (show i + 1 ≤ j by omega) (by omega)
      have h2 := strstr_none hlater (mat.getD j 0 - mat.getD (i + 1) 0 + k)
      rw [List.drop_drop] at h1 h2
      rw [show mat.getD (i + 1) 0 + (mat.getD j 0 - mat.getD (i + 1) 0 + k) =
        mat.getD j 0 + k by omega] at h2
      exact h2 h1

/-- When the first line break of a declaration comes no later than the start
of the next one, the write carries the new header and then the body span. -/
theorem declWrite_of_le (mtl : Text) (mat : List Nat) (n i : Nat)
    (h : mat.getD i 0 + strcspnEol (mtl.drop (mat.getD i 0)) ≤ mat.getD (i + 1) 0) :
    declWrite mtl mat n i = "newmtl mat".toList ++ printInt n ++ bodySpan mtl mat i := by
  have hp : ¬ ((mat.getD (i + 1) 0 : Int) -
      ((mat.getD i 0 + strcspnEol (mtl.drop (mat.getD i 0)) : Nat) : Int) < 0) := by omega
  have ht : ((mat.getD (i + 1) 0 : Int) -
      ((mat.getD i 0 + strcspnEol (mtl.drop (mat.getD i 0)) : Nat) : Int)).toNat =
      mat.getD (i + 1) 0 - (mat.getD i 0 + strcspnEol (mtl.drop (mat.getD i 0))) := by omega
  simp only [declWrite, bodySpan, printPrec]
  rw [if_neg hp, ht]

/-! ## The claims -/

/-- C1, order invariant, evaluated where the code breaks it. The geometry text
`usemtl A`, `usemtl B` has its usage markers at offsets 0 and 9, and the name
field of the first one resolves to declaration 0, material `A`. The run
completes, writes a single declaration, headed `newmtl mat0`, with the body of
material `B`, and rewrites two usage lines, `mat0` and `mat1`. -/
theorem order_lost_for_usage_at_offset_zero :
    usageMarkers "usemtl A\nusemtl B\n".toList = [0, 9] ∧
    matOf mtlAB = some [0, 18, 36] ∧
    search mtlAB [0, 18, 36]
      (nameAt "usemtl A\nusemtl B\n".toList (nameStart "usemtl A\nusemtl B\n".toList 0)) 2
        = some 0 ∧
    bodySpan mtlAB [0, 18, 36] 0 = "\nKd 1 0 0\n".toList ∧
    mtlsort "usemtl A\nusemtl B\n".toList mtlAB =
      ⟨Status.completed, ["newmtl mat0\nKd 0 1 0\n".toList],
        ["usemtl mat0\n".toList, "usemtl mat1\n".toList]⟩ := by
  decide

/-- C2, count invariant, evaluated where the code breaks it. The geometry text
`usemtl A`, `v 0 0 0` holds one usage marker; the run completes and writes no
declaration at all, while the geometry output refers to `mat0`. -/
theorem count_lost_for_usage_at_offset_zero :
    (usageMarkers "usemtl A\nv 0 0 0\n".toList).length = 1 ∧
    (mtlsort "usemtl A\nv 0 0 0\n".toList mtlAB).status = Status.completed ∧
    (mtlsort "usemtl A\nv 0 0 0\n".toList mtlAB).mtlOut.length = 0 ∧
    (mtlsort "usemtl A\nv 0 0 0\n".toList mtlAB).objOut =
      ["usemtl mat0\n".toList, "v 0 0 0\n".toList] := by
  decide

/-- C3 fails as stated. The material text declares `Wood`, then `DarkWood`; the
usage `usemtl Wood` has the name field `Wood` with its line feed, the header of
declaration 0 is `newmtl Wood`, and the search returns declaration 1, whose
header is `newmtl DarkWood`; the body written is that of `DarkWood`. -/
theorem wood_resolves_to_darkwood :
    matOf "newmtl Wood\nKd 1 0 0\nnewmtl DarkWood\nKd 0 0 0\n".toList = some [0, 21, 46] ∧
    nameAt "v 1 2 3\nusemtl Wood\n".toList (nameStart "v 1 2 3\nusemtl Wood\n".toList 8)
      = "Wood\n".toList ∧
    "newmtl Wood\n".toList <+:
      ("newmtl Wood\nKd 1 0 0\nnewmtl DarkWood\nKd 0 0 0\n".toList).drop 0 ∧
    "newmtl DarkWood\n".toList <+:
      ("newmtl Wood\nKd 1 0 0\nnewmtl DarkWood\nKd 0 0 0\n".toList).drop 21 ∧
    search "newmtl Wood\nKd 1 0 0\nnewmtl DarkWood\nKd 0 0 0\n".toList [0, 21, 46]
      "Wood\n".toList 2 = some 1 ∧
    mtlsort "v 1 2 3\nusemtl Wood\n".toList
      "newmtl Wood\nKd 1 0 0\nnewmtl DarkWood\nKd 0 0 0\n".toList =
      ⟨Status.completed, ["newmtl mat0\nKd 0 0 0\n".toList],
        ["v 1 2 3\n".toList, "usemtl mat0\n".toList]⟩ := by
  decide

/-- C3 as amended. Let `name` be the name field of a usage, that is the name
with the line terminator taken with it. If the header of declaration `i` is
`newmtl`, a space and that name field, and `strstr` does not find the name field
from the start of declaration `i + 1` on, then the backward search returns
declaration `i`. -/
theorem resolves_to_named_declaration (mtl name : Text) (mat : List Nat) (i : Nat)
    (hmat : matOf mtl = some mat) (hi : i + 1 < mat.length)
    (hhdr : (newmtlKw ++ ' ' :: name) <+: mtl.drop (mat.getD i 0))
    (hlater : strstr (mtl.drop (mat.getD (i + 1) 0)) name = none) :
    search mtl mat name (mat.length - 1) = some i :=
  search_header hmat hi hhdr hlater

/-- The amended C3 at the material text of the example: the name field `A` with
its line feed resolves to declaration 0. -/
theorem resolves_to_named_declaration_witness :
    matOf mtlAB = some [0, 18, 36] ∧
    (newmtlKw ++ ' ' :: "A\n".toList) <+: mtlAB.drop (([0, 18, 36] : List Nat).getD 0 0) ∧
    strstr (mtlAB.drop (([0, 18, 36] : List Nat).getD (0 + 1) 0)) "A\n".toList = none ∧
    search mtlAB [0, 18, 36] "A\n".toList (([0, 18, 36] : List Nat).length - 1) = some 0 :=
  ⟨by decide, by decide, by decide,
    resolves_to_named_declaration mtlAB "A\n".toList [0, 18, 36] 0
      (by decide) (by decide) (by decide) (by decide)⟩

/-- C4, body preservation, evaluated where the code breaks it. In the material
text `newmtl A newmtl B`, `Kd 1 0 0` the second keyword comes before the first
line break; the name field `A` resolves to declaration 0, whose body, from the
first line break at offset 17 up to the start of declaration 1 at offset 9, is
empty; the declaration written carries the line `Kd 1 0 0`. -/
theorem body_runs_past_next_declaration :
    matOf "newmtl A newmtl B\nKd 1 0 0\n".toList = some [0, 9, 27] ∧
    nameAt "v 1 2 3\nusemtl A".toList (nameStart "v 1 2 3\nusemtl A".toList 8) = "A".toList ∧
    search "newmtl A newmtl B\nKd 1 0 0\n".toList [0, 9, 27] "A".toList 2 = some 0 ∧
    bodySpan "newmtl A newmtl B\nKd 1 0 0\n".toList [0, 9, 27] 0 = [] ∧
    mtlsort "v 1 2 3\nusemtl A".toList "newmtl A newmtl B\nKd 1 0 0\n".toList =
      ⟨Status.completed, ["newmtl mat0\nKd 1 0 0\n".toList],
        ["v 1 2 3\n".toList, "usemtl mat0\n".toList]⟩ := by
  decide


/-- C5, failure condition. With `us` the starts of the name fields of the
usages collected from the geometry text, `mtlsort` ends on one of its two
assertions exactly when some collected usage has a name field that occurs
nowhere in the material text at or after the first `newmtl` keyword (so also
when there is no such keyword), or has `nameLen`, the length of the field with
the terminator byte taken with it, at 1024 or more; on every other input the run
completes. -/
theorem aborts_iff_usage_fails (obj mtl : Text) :
    ∃ us, scanLoop obj (obj.length + 1) (some 0) = some us ∧
      (((mtlsort obj mtl).status = Status.nameOverflow ∨
          (mtlsort obj mtl).status = Status.unresolved) ↔
        ∃ s ∈ us,
          (¬ ∃ p q, strstr mtl newmtlKw = some p ∧ p ≤ q ∧ nameAt obj s <+: mtl.drop q) ∨
            1024 ≤ nameLenAt obj s) ∧
      ((¬ ∃ s ∈ us,
          (¬ ∃ p q, strstr mtl newmtlKw = some p ∧ p ≤ q ∧ nameAt obj s <+: mtl.drop q) ∨
            1024 ≤ nameLenAt obj s) →
        (mtlsort obj mtl).status = Status.completed) := by
  obtain ⟨occ, us, _, hus, hocc, hrun⟩ := mtlsort_eq obj mtl
  have hfail : ∀ s, usageFails obj mtl (occ ++ [mtl.length]) occ.length s ↔
      ((¬ ∃ p q, strstr mtl newmtlKw = some p ∧ p ≤ q ∧ nameAt obj s <+: mtl.drop q) ∨
        1024 ≤ nameLenAt obj s) := by
    intro s
    unfold usageFails
    rw [search_none_iff (nameAt obj s) hocc, occurs_after_first_iff]
    exact Or.comm
  refine ⟨us, hus, ?_⟩
  rcases emitAll_status obj mtl (occ ++ [mtl.length]) occ.length us 0 with
    ⟨hst, hall⟩ | ⟨hst, s, hs, hf⟩
  · rw [if_pos hst] at hrun
    have hnone : ¬ ∃ s ∈ us,
        (¬ ∃ p q, strstr mtl newmtlKw = some p ∧ p ≤ q ∧ nameAt obj s <+: mtl.drop q) ∨
          1024 ≤ nameLenAt obj s := by
      rintro ⟨s, hs, hf⟩
      exact hall s hs ((hfail s).mpr hf)
    rw [hrun]
    refine ⟨⟨?_, fun h => absurd h hnone⟩, fun _ => rfl⟩
    rintro (h | h) <;> cases h
  · have hne : ¬ (emitAll obj mtl (occ ++ [mtl.length]) occ.length us 0).2 =
        Status.completed := by
      rcases hst with h | h <;> rw [h] <;> decide
    rw [if_neg hne] at hrun
    have hsome : ∃ s ∈ us,
        (¬ ∃ p q, strstr mtl newmtlKw = some p ∧ p ≤ q ∧ nameAt obj s <+: mtl.drop q) ∨
          1024 ≤ nameLenAt obj s := ⟨s, hs, (hfail s).mp hf⟩
    rw [hrun]
    exact ⟨⟨fun _ => hsome, fun _ => hst⟩, fun h => absurd hsome h⟩

/-- When `mtlsort` does not complete, no `fprintf` call has been made on the
geometry sink, and the calls made on the material sink are one declaration for
each collected usage before the first failing one, numbered from zero and
carrying what the backward search found for that usage. -/
theorem abort_writes (obj mtl : Text)
    (h : (mtlsort obj mtl).status ≠ Status.completed) :
    (mtlsort obj mtl).objOut = [] ∧
    ∃ mat us pre s post, matOf mtl = some mat ∧
      scanLoop obj (obj.length + 1) (some 0) = some us ∧ us = pre ++ s :: post ∧
      usageFails obj mtl mat (mat.length - 1) s ∧
      (∀ u ∈ pre, ¬ usageFails obj mtl mat (mat.length - 1) u) ∧
      (mtlsort obj mtl).mtlOut.length = pre.length ∧
      ∀ k, k < pre.length →
        ∃ i, search mtl mat (nameAt obj (pre.getD k 0)) (mat.length - 1) = some i ∧
          (mtlsort obj mtl).mtlOut[k]? = some (declWrite mtl mat k i) := by
  obtain ⟨occ, us, hmat, hus, _, hrun⟩ := mtlsort_eq obj mtl
  have hne : ¬ (emitAll obj mtl (occ ++ [mtl.length]) occ.length us 0).2 =
      Status.completed := by
    intro hc
    rw [if_pos hc] at hrun
    exact h (by rw [hrun])
  rw [if_neg hne] at hrun
  obtain ⟨pre, s, post, e1, e2, e3, e4, e5⟩ :=
    emitAll_abort obj mtl (occ ++ [mtl.length]) occ.length us 0 hne
  have hlen : (occ ++ [mtl.length]).length - 1 = occ.length := by simp
  rw [hrun]
  refine ⟨rfl, occ ++ [mtl.length], us, pre, s, post, hmat, hus, e1, ?_, ?_, e4, ?_⟩
  · rw [hlen]; exact e2
  · rw [hlen]; exact e3
  · intro k hk
    obtain ⟨i, h1, h2⟩ := e5 k hk
    rw [Nat.zero_add] at h2
    exact ⟨i, by rw [hlen]; exact h1, h2⟩

/-- C7, idempotence, evaluated where the code breaks it. The first run, on a
geometry text made of a comment line and a usage line, writes one declaration
and one usage line; the second run, on the bytes written by the first,
completes and writes no declaration, while it still writes one usage line. -/
theorem second_run_loses_declaration :
    mtlsort "# c\nusemtl A\n".toList "newmtl A\nKd 1 0 0\n".toList =
      ⟨Status.completed, ["newmtl mat0\nKd 1 0 0\n".toList], ["usemtl mat0\n".toList]⟩ ∧
    mtlsort
      (bytes (mtlsort "# c\nusemtl A\n".toList "newmtl A\nKd 1 0 0\n".toList).objOut)
      (bytes (mtlsort "# c\nusemtl A\n".toList "newmtl A\nKd 1 0 0\n".toList).mtlOut) =
      ⟨Status.completed, [], ["usemtl mat0\n".toList]⟩ := by
  decide

/-- C8 fails as stated. On the geometry text `# c`, `v 1 2 3` the run completes
and the geometry sink receives the second line alone; the comment line is not
in the bytes written. -/
theorem comment_line_not_copied :
    mtlsort "# c\nv 1 2 3\n".toList mtlAB =
      ⟨Status.completed, [], ["v 1 2 3\n".toList]⟩ ∧
    ¬ ("# c\n".toList <:+: bytes (mtlsort "# c\nv 1 2 3\n".toList mtlAB).objOut) := by
  decide

/-- C9, geometry rewrite equation, evaluated where the code breaks it. The
geometry text made of an empty line and the line `usemtl A` has no comment
line; its second line begins with the usage keyword, so the rewriting of the
specification gives `usemtl mat0` for it. `nextline` returns the null pointer
at the leading line feed, and the geometry pass writes the text unchanged. -/
theorem leading_line_break_stops_rewrite :
    geoLines "\nusemtl A\n".toList = ["\n".toList, "usemtl A\n".toList] ∧
    bytes (rewriteLines 0 (geoLines "\nusemtl A\n".toList)) = "\nusemtl mat0\n".toList ∧
    nextline "\nusemtl A\n".toList (some 0) = none ∧
    mtlsort "\nusemtl A\n".toList mtlAB =
      ⟨Status.completed, ["newmtl mat0\nKd 1 0 0\n".toList], ["\nusemtl A\n".toList]⟩ := by
  decide

/-- C10, declaration indexer. The filling loop ends and stores in `mat` the
offsets `occ` followed by the length of the text, where `occ` holds exactly
the offsets at which the keyword `newmtl` occurs, in strictly increasing
order; the counting loop finds as many; and every declaration `i` has
`mat[i] < mat[i + 1]`. -/
theorem declaration_indexer (mtl : Text) :
    ∃ occ : List Nat, matOf mtl = some (occ ++ [mtl.length]) ∧
      countLoop mtl (mtl.length + 1) (strstr mtl newmtlKw) = some occ.length ∧
      (∀ p, p ∈ occ ↔ newmtlKw <+: mtl.drop p) ∧
      occ.Pairwise (· < ·) ∧
      ∀ i, i < occ.length →
        (occ ++ [mtl.length]).getD i 0 < (occ ++ [mtl.length]).getD (i + 1) 0 := by
  obtain ⟨occ, h1, h2, h3, h4⟩ := matOf_spec mtl
  refine ⟨occ, h1, h2, h4, (List.pairwise_append.mp h3).1, ?_⟩
  intro i hi
  have hl : (occ ++ [mtl.length]).length = occ.length + 1 := by simp
  rw [getD_eq_getElem' _ (by omega), getD_eq_getElem' _ (by omega)]
  exact List.pairwise_iff_getElem.mp h3 i (i + 1) (by omega) (by omega) (by omega)

/-! ## Fuel beyond the length of the text changes nothing -/

theorem scanLoop_succ (obj : Text) :
    ∀ (fuel : Nat) (s : Option Nat) (us : List Nat),
      scanLoop obj fuel s = some us → scanLoop obj (fuel + 1) s = some us := by
  intro fuel
  induction fuel with
  | zero =>
    intro s us h
    cases s with
    | none => simpa [scanLoop] using h
    | some p => simp [scanLoop] at h
  | succ fuel ih =>
    intro s us h
    cases s with
    | none => simpa [scanLoop] using h
    | some p =>
      unfold scanLoop at h ⊢
      by_cases h0 : p = 0
      · rw [if_pos h0] at h ⊢
        exact ih _ _ h
      · rw [if_neg h0] at h ⊢
        simp only at h ⊢
        cases hr : scanLoop obj fuel (strstrAt obj (nameStart obj p + 1) usemtlKw) with
        | none => rw [hr] at h; cases h
        | some us' =>
          rw [hr] at h
          rw [ih _ _ hr]
          exact h

theorem scanLoop_le (obj : Text) (s : Option Nat) (us : List Nat) :
    ∀ (f g : Nat), f ≤ g → scanLoop obj f s = some us → scanLoop obj g s = some us := by
  intro f g hfg h
  induction g with
  | zero =>
    have : f = 0 := by omega
    subst this
    exact h
  | succ g ih =>
    by_cases hfg' : f ≤ g
    · exact scanLoop_succ obj g s us (ih hfg')
    · have : f = g + 1 := by omega
      subst this
      exact h

theorem objLoop_succ (obj : Text) :
    ∀ (fuel : Nat) (s : Option Nat) (k : Nat),
      (objLoop obj fuel s k).2 = Status.completed →
      objLoop obj (fuel + 1) s k = objLoop obj fuel s k := by
  intro fuel
  induction fuel with
  | zero =>
    intro s k h
    cases s with
    | none => simp [objLoop]
    | some p => simp [objLoop] at h
  | succ fuel ih =>
    intro s k h
    cases s with
    | none => simp [objLoop]
    | some p =>
      unfold objLoop at h ⊢
      simp only at h ⊢
      split
      · rename_i hc
        rw [if_pos hc] at h
        exact ih _ _ h
      · rename_i hc
        rw [if_neg hc] at h
        split
        · rename_i hu
          rw [if_pos hu] at h
          rw [ih _ _ h]
        · rename_i hu
          rw [if_neg hu] at h
          rw [ih _ _ h]

theorem objLoop_le (obj : Text) (s : Option Nat) (k : Nat) :
    ∀ (f g : Nat), f ≤ g → (objLoop obj f s k).2 = Status.completed →
      objLoop obj g s k = objLoop obj f s k := by
  intro f g hfg h
  induction g with
  | zero =>
    have : f = 0 := by omega
    subst this
    rfl
  | succ g ih =>
    by_cases hfg' : f ≤ g
    · have e := ih hfg'
      rw [← e] at h
      rw [objLoop_succ obj g s k h, e]
    · have : f = g + 1 := by omega
      subst this
      rfl

/-! ## The claims on unused content, `nextline` and termination -/

/-- C15, unused material content, evaluated where the code breaks it. The
material text declares `A` and `B` on one line, then `C`; the only usage has the
name field `A` and resolves to declaration 0. The second keyword comes before
the first line break, so the write runs to the end of the text: the declaration
`C`, which no usage resolves to, is in the material output with its header. -/
theorem unused_declaration_written :
    matOf "newmtl A newmtl B\nKd 1 0 0\nnewmtl C\nKd 0 0 1\n".toList = some [0, 9, 27, 45] ∧
    scanLoop "v 1 2 3\nusemtl A".toList ("v 1 2 3\nusemtl A".toList.length + 1) (some 0)
      = some [15] ∧
    search "newmtl A newmtl B\nKd 1 0 0\nnewmtl C\nKd 0 0 1\n".toList [0, 9, 27, 45]
      (nameAt "v 1 2 3\nusemtl A".toList 15) 3 = some 0 ∧
    mtlsort "v 1 2 3\nusemtl A".toList
      "newmtl A newmtl B\nKd 1 0 0\nnewmtl C\nKd 0 0 1\n".toList =
      ⟨Status.completed, ["newmtl mat0\nKd 1 0 0\nnewmtl C\nKd 0 0 1\n".toList],
        ["v 1 2 3\n".toList, "usemtl mat0\n".toList]⟩ ∧
    "newmtl C\nKd 0 0 1\n".toList <:+:
      bytes (mtlsort "v 1 2 3\nusemtl A".toList
        "newmtl A newmtl B\nKd 1 0 0\nnewmtl C\nKd 0 0 1\n".toList).mtlOut := by
  decide

/-- C16, contract of `nextline`, evaluated where the code breaks it. The string
made of a line feed and `foo` has a second line, `foo`, at offset 1, the first
character that is not a control character after the line feed; `nextline`
returns the null pointer. -/
theorem nextline_null_before_a_line :
    nextline "\nfoo".toList (some 0) = none ∧
    geoLines "\nfoo".toList = ["\n".toList, "foo".toList] ∧
    lineLen "\nfoo".toList = 1 ∧
    ("\nfoo".toList).drop 1 = "foo".toList := by
  decide

/-- C17, termination. The run never ends for lack of fuel: the array `mat` is
built, the keyword scan of the material loop and the geometry loop both end
within the fuel supplied, more fuel gives the same passes, and the run
completes or stops on one of the two assertions. Each keyword search of the
material loop returns an offset strictly after the previous match, and
`nextline` returns the null pointer or an offset strictly after its
argument. -/
theorem both_scans_terminate (obj mtl : Text) :
    ((mtlsort obj mtl).status = Status.completed ∨
      (mtlsort obj mtl).status = Status.nameOverflow ∨
      (mtlsort obj mtl).status = Status.unresolved) ∧
    (∃ mat, matOf mtl = some mat ∧
      ∀ fuel, obj.length + 1 ≤ fuel →
        emitLoop obj mtl mat (mat.length - 1) fuel (some 0) 0 = mtlPass obj mtl mat) ∧
    (∃ us, scanLoop obj (obj.length + 1) (some 0) = some us) ∧
    ((objPass obj).2 = Status.completed ∧
      ∀ fuel, obj.length + 1 ≤ fuel → objLoop obj fuel (some 0) 0 = objPass obj) ∧
    (∀ s p, strstrAt obj (nameStart obj s + 1) usemtlKw = some p → s < p) ∧
    (∀ s p, strstrAt obj (s + 1) usemtlKw = some p → s < p) ∧
    (∀ s, nextline obj (some s) = none ∨ ∃ s', nextline obj (some s) = some s' ∧ s < s') := by
  obtain ⟨occ, us, hmat, hus, _, hrun⟩ := mtlsort_eq obj mtl
  have hg : (objPass obj).2 = Status.completed :=
    objLoop_completes obj (obj.length + 1) (some 0) 0 (fun p hp => by cases hp; omega)
  refine ⟨?_, ⟨occ ++ [mtl.length], hmat, ?_⟩, ⟨us, hus⟩, ⟨hg, ?_⟩, ?_, ?_, ?_⟩
  · rcases emitAll_status obj mtl (occ ++ [mtl.length]) occ.length us 0 with
      ⟨hst, _⟩ | ⟨hst, _⟩
    · rw [if_pos hst] at hrun
      rw [hrun]
      exact Or.inl rfl
    · have hne : ¬ (emitAll obj mtl (occ ++ [mtl.length]) occ.length us 0).2 =
          Status.completed := by
        rcases hst with h | h <;> rw [h] <;> decide
      rw [if_neg hne] at hrun
      rw [hrun]
      exact Or.inr hst
  · intro fuel hfuel
    unfold mtlPass
    rw [emitLoop_eq_emitAll obj mtl _ _ _ _ 0 us hus,
      emitLoop_eq_emitAll obj mtl _ _ _ _ 0 us (scanLoop_le obj _ us _ _ hfuel hus)]
  · intro fuel hfuel
    exact objLoop_le obj (some 0) 0 _ _ hfuel hg
  · intro s p hp
    have h1 := (strstrAt_some hp).1
    have h2 := nameStart_ge obj s
    omega
  · intro s p hp
    have h1 := (strstrAt_some hp).1
    omega
  · intro s
    cases hn : nextline obj (some s) with
    | none => exact Or.inl rfl
    | some s' => exact Or.inr ⟨s', rfl, (nextline_some hn).1⟩

/-! ## The usages of the scan -/

/-- Every usage of the scan comes from a keyword found after offset 0. -/
theorem scanLoop_mem (obj : Text) :
    ∀ (fuel : Nat) (s : Option Nat) (us : List Nat),
      scanLoop obj fuel s = some us →
      (∀ p, s = some p → p = 0 ∨ usemtlKw <+: obj.drop p) →
      ∀ x ∈ us, ∃ p, 0 < p ∧ usemtlKw <+: obj.drop p ∧ x = nameStart obj p := by
  intro fuel
  induction fuel with
  | zero =>
    intro s us h _ x hx
    cases s with
    | none =>
      simp only [scanLoop, Option.some.injEq] at h
      subst h
      cases hx
    | some p => simp [scanLoop] at h
  | succ fuel ih =>
    intro s us h hs x hx
    cases s with
    | none =>
      simp only [scanLoop, Option.some.injEq] at h
      subst h
      cases hx
    | some p =>
      have next : ∀ q p', strstrAt obj (q + 1) usemtlKw = some p' →
          p' = 0 ∨ usemtlKw <+: obj.drop p' :=
        fun q p' hp' => Or.inr (strstrAt_some hp').2.1
      unfold scanLoop at h
      by_cases h0 : p = 0
      · rw [if_pos h0] at h
        exact ih _ us h (next p) x hx
      · rw [if_neg h0] at h
        simp only at h
        cases hr : scanLoop obj fuel (strstrAt obj (nameStart obj p + 1) usemtlKw) with
        | none => rw [hr] at h; cases h
        | some us' =>
          rw [hr] at h
          simp only [Option.map_some', Option.some.injEq] at h
          subst h
          rcases List.mem_cons.mp hx with rfl | hm
          · rcases hs p rfl with hp | hp
            · exact absurd hp h0
            · exact ⟨p, by omega, hp, rfl⟩
          · exact ih _ us' hr (next (nameStart obj p)) x hm

theorem take_strcspnEol_succ (t : Text) :
    t.take (strcspnEol t + 1) =
      t.takeWhile (fun c => !isEol c) ++ (t.dropWhile (fun c => !isEol c)).take 1 := by
  have h := List.takeWhile_append_dropWhile (fun c => !isEol c) t
  have e : t.take (strcspnEol t + 1) =
      (t.takeWhile (fun c => !isEol c) ++ t.dropWhile (fun c => !isEol c)).take
        ((t.takeWhile (fun c => !isEol c)).length + 1) := by
    rw [h]; rfl
  rw [e, List.take_append]

theorem drop_nameStart (obj : Text) (p : Nat) :
    obj.drop (nameStart obj p) =
      (obj.drop (p + usemtlKw.length)).dropWhile (fun c => isblank c || iscntrl c) := by
  simp only [nameStart]
  rw [← List.drop_drop, drop_length_takeWhile]

/-- The string left in `name` is the name field of the specification. -/
theorem nameAt_eq_nameField (obj : Text) (p : Nat) :
    nameAt obj (nameStart obj p) = nameField (obj.drop (p + usemtlKw.length)) := by
  unfold nameAt nameLenAt nameField
  rw [take_strcspnEol_succ, drop_nameStart]

/-- C12, name extraction. Every usage collected by the scan comes from a
keyword at an offset `p` after 0; its name field starts at the first character
after the keyword that is neither blank nor a control character, and the
string left in `name` is the name field of the specification: the characters
up to the first CR or LF and that one terminator byte, `nameLen` bytes in all,
or the rest of the text when no CR or LF follows. -/
theorem name_field_extraction (obj : Text) :
    ∃ us, scanLoop obj (obj.length + 1) (some 0) = some us ∧
      ∀ s ∈ us, ∃ p, 0 < p ∧ usemtlKw <+: obj.drop p ∧ s = nameStart obj p ∧
        obj.drop s =
          (obj.drop (p + usemtlKw.length)).dropWhile (fun c => isblank c || iscntrl c) ∧
        (∀ c, (obj.drop s).head? = some c → (isblank c || iscntrl c) = false) ∧
        nameAt obj s = nameField (obj.drop (p + usemtlKw.length)) ∧
        nameLenAt obj s = ((obj.drop s).takeWhile (fun c => !isEol c)).length + 1 ∧
        (∀ x ∈ (obj.drop s).takeWhile (fun c => !isEol c), isEol x = false) ∧
        (∀ c rest, (obj.drop s).dropWhile (fun c => !isEol c) = c :: rest →
          isEol c = true ∧
          nameAt obj s = (obj.drop s).takeWhile (fun c => !isEol c) ++ [c] ∧
          (nameAt obj s).length = nameLenAt obj s) ∧
        ((obj.drop s).dropWhile (fun c => !isEol c) = [] → nameAt obj s = obj.drop s) := by
  obtain ⟨us, hus⟩ := scanLoop_adequate obj (obj.length + 1) (some 0)
    (fun p hp => by cases hp; omega)
  refine ⟨us, hus, ?_⟩
  intro s hs
  obtain ⟨p, hp0, hp, rfl⟩ := scanLoop_mem obj _ _ us hus
    (fun q hq => by cases hq; exact Or.inl rfl) s hs
  have hname : nameAt obj (nameStart obj p) =
      (obj.drop (nameStart obj p)).takeWhile (fun c => !isEol c) ++
        ((obj.drop (nameStart obj p)).dropWhile (fun c => !isEol c)).take 1 := by
    unfold nameAt nameLenAt
    exact take_strcspnEol_succ _
  refine ⟨p, hp0, hp, rfl, drop_nameStart obj p, ?_, nameAt_eq_nameField obj p, rfl, ?_, ?_, ?_⟩
  · intro c hc
    rw [drop_nameStart] at hc
    have := List.head?_dropWhile_not (fun c => isblank c || iscntrl c)
      (obj.drop (p + usemtlKw.length))
    rw [hc] at this
    exact this
  · intro x hx
    have := List.mem_takeWhile_imp hx
    simpa using this
  · intro c rest hc
    have hnot := List.head?_dropWhile_not (fun c => !isEol c) (obj.drop (nameStart obj p))
    rw [hc] at hnot
    have hname' : nameAt obj (nameStart obj p) =
        (obj.drop (nameStart obj p)).takeWhile (fun c => !isEol c) ++ [c] := by
      rw [hname, hc]; rfl
    refine ⟨by simpa using hnot, hname', ?_⟩
    rw [hname', List.length_append]
    rfl
  · intro hnil
    rw [hname, hnil]
    have h := List.takeWhile_append_dropWhile (fun c => !isEol c) (obj.drop (nameStart obj p))
    rw [hnil] at h
    simpa using h

/-! ## The resolution rule -/

theorem getD_append_length (occ : List Nat) (n : Nat) :
    (occ ++ [n]).getD occ.length 0 = n := by
  rw [List.getD_eq_getElem?_getD, List.getElem?_append_right (Nat.le_refl _)]
  simp

theorem occursFrom_iff (mtl name : Text) (a : Nat) :
    (strstr (mtl.drop a) name).isSome = true ↔ ∃ q, a ≤ q ∧ name <+: mtl.drop q := by
  rw [strstr_isSome_iff]
  constructor
  · rintro ⟨k, hk⟩
    rw [List.drop_drop] at hk
    exact ⟨a + k, by omega, hk⟩
  · rintro ⟨q, hq, h⟩
    refine ⟨q - a, ?_⟩
    rw [List.drop_drop, show a + (q - a) = q by omega]
    exact h

/-- The backward search returns the last declaration from whose keyword on the
name is found; that declaration holds the start of the last occurrence of the
name in the text. -/
theorem search_latest {mtl name : Text} {mat : List Nat} (hmat : matOf mtl = some mat)
    (hocc : ∃ p q, strstr mtl newmtlKw = some p ∧ p ≤ q ∧ name <+: mtl.drop q) :
    ∃ i, search mtl mat name (mat.length - 1) = some i ∧ i + 1 < mat.length ∧
      (∃ q, mat.getD i 0 ≤ q ∧ name <+: mtl.drop q) ∧
      (∀ j, i < j → j + 1 < mat.length → ¬ ∃ q, mat.getD j 0 ≤ q ∧ name <+: mtl.drop q) ∧
      ∀ p, p < mtl.length → name <+: mtl.drop p →
        (∀ q, p < q → q < mtl.length → ¬ name <+: mtl.drop q) →
        (mat.getD i 0 ≤ p ∧ p < mat.getD (i + 1) 0) ∧
          ∀ j, j + 1 < mat.length → mat.getD j 0 ≤ p → p < mat.getD (j + 1) 0 → j = i := by
  obtain ⟨occ, hm, _, hsorted, hoccs⟩ := matOf_spec mtl
  rw [hmat, Option.some.injEq] at hm
  subst hm
  have hlen : (occ ++ [mtl.length]).length - 1 = occ.length := by simp
  have hlen' : (occ ++ [mtl.length]).length = occ.length + 1 := by simp
  rw [hlen, hlen']
  cases hs : search mtl (occ ++ [mtl.length]) name occ.length with
  | none =>
    exact absurd ((occurs_after_first_iff mtl name).mpr hocc)
      ((search_none_iff name hoccs).mp hs)
  | some i =>
    obtain ⟨hi, hsome, hnone⟩ := search_some hs
    have hfrom := (occursFrom_iff mtl name _).mp hsome
    have hkw : newmtlKw <+: mtl.drop ((occ ++ [mtl.length]).getD i 0) := by
      rw [getD_append_left occ _ hi]
      exact (hoccs _).mp (List.getElem_mem _)
    have hbound := occurrence_bound hkw newmtlKw_ne_nil
    refine ⟨i, rfl, by omega, hfrom, ?_, ?_⟩
    · intro j hij hj hex
      have := hnone j hij (by omega)
      rw [(occursFrom_iff mtl name _).mpr hex] at this
      cases this
    · intro p hp hat hlast
      have h1 : (occ ++ [mtl.length]).getD i 0 ≤ p := by
        by_contra hlt
        obtain ⟨q0, hq0, hname⟩ := hfrom
        by_cases hq : q0 < mtl.length
        · exact hlast q0 (by omega) hq hname
        · have hnil : mtl.drop q0 = [] := List.drop_eq_nil_iff.mpr (by omega)
          rw [hnil] at hname
          have hempty : name = [] := List.prefix_nil.mp hname
          have hk : newmtlKw.length = 6 := by decide
          refine hlast ((occ ++ [mtl.length]).getD i 0) (by omega) (by omega) ?_
          rw [hempty]
          exact List.nil_prefix
      have h2 : p < (occ ++ [mtl.length]).getD (i + 1) 0 := by
        by_cases hi1 : i + 1 < occ.length
        · by_contra hge
          have := hnone (i + 1) (by omega) hi1
          rw [(occursFrom_iff mtl name _).mpr ⟨p, by omega, hat⟩] at this
          cases this
        · have : i + 1 = occ.length := by omega
          rw [this, getD_append_length]
          exact hp
      refine ⟨⟨h1, h2⟩, ?_⟩
      intro j hj hj1 hj2
      by_contra hne
      rcases Nat.lt_or_gt_of_ne hne with hlt | hgt
      · have := pairwise_getD_le hsorted (show j + 1 ≤ i by omega) (by omega)
        omega
      · have := pairwise_getD_le hsorted (show i + 1 ≤ j by omega) (by omega)
        omega

/-- C11, resolution rule. For a material text with a declaration and a name
that occurs at or after the first `newmtl` keyword, the backward search returns
a declaration `i` from whose keyword on the name is found, while it is found
from the keyword of no later declaration: the latest match wins. Equivalently,
when `p` is the start of the last occurrence of the name in the text, `i` is
the one declaration with `mat[i] ≤ p < mat[i + 1]`. -/
theorem latest_declaration_wins (mtl name : Text) (mat : List Nat)
    (hmat : matOf mtl = some mat)
    (hocc : ∃ p q, strstr mtl newmtlKw = some p ∧ p ≤ q ∧ name <+: mtl.drop q) :
    ∃ i, search mtl mat name (mat.length - 1) = some i ∧ i + 1 < mat.length ∧
      (∃ q, mat.getD i 0 ≤ q ∧ name <+: mtl.drop q) ∧
      (∀ j, i < j → j + 1 < mat.length → ¬ ∃ q, mat.getD j 0 ≤ q ∧ name <+: mtl.drop q) ∧
      ∀ p, p < mtl.length → name <+: mtl.drop p →
        (∀ q, p < q → q < mtl.length → ¬ name <+: mtl.drop q) →
        (mat.getD i 0 ≤ p ∧ p < mat.getD (i + 1) 0) ∧
          ∀ j, j + 1 < mat.length → mat.getD j 0 ≤ p → p < mat.getD (j + 1) 0 → j = i :=
  search_latest hmat hocc

/-- C11 on a material text that declares `Wood` and then `DarkWood`, for the
name field `Wood` with its line feed: the name occurs at offsets 7 and 32, and
the search returns declaration 1, which starts at offset 21. -/
theorem latest_declaration_wins_witness :
    matOf mtlWood = some [0, 21, 46] ∧
    (∃ p q, strstr mtlWood newmtlKw = some p ∧ p ≤ q ∧ "Wood\n".toList <+: mtlWood.drop q) ∧
    ∃ i, search mtlWood [0, 21, 46] "Wood\n".toList (([0, 21, 46] : List Nat).length - 1)
        = some i ∧
      i + 1 < ([0, 21, 46] : List Nat).length ∧
      (∃ q, ([0, 21, 46] : List Nat).getD i 0 ≤ q ∧ "Wood\n".toList <+: mtlWood.drop q) ∧
      (∀ j, i < j → j + 1 < ([0, 21, 46] : List Nat).length →
        ¬ ∃ q, ([0, 21, 46] : List Nat).getD j 0 ≤ q ∧ "Wood\n".toList <+: mtlWood.drop q) ∧
      ∀ p, p < mtlWood.length → "Wood\n".toList <+: mtlWood.drop p →
        (∀ q, p < q → q < mtlWood.length → ¬ "Wood\n".toList <+: mtlWood.drop q) →
        (([0, 21, 46] : List Nat).getD i 0 ≤ p ∧ p < ([0, 21, 46] : List Nat).getD (i + 1) 0) ∧
          ∀ j, j + 1 < ([0, 21, 46] : List Nat).length →
            ([0, 21, 46] : List Nat).getD j 0 ≤ p →
            p < ([0, 21, 46] : List Nat).getD (j + 1) 0 → j = i :=
  ⟨by decide, ⟨0, 7, by decide, by decide, by decide⟩,
    latest_declaration_wins _ _ _ (by decide) ⟨0, 7, by decide, by decide, by decide⟩⟩

/-! ## A usage at the start of the geometry text -/

theorem usageMarkers_head {obj : Text} (h : usemtlKw <+: obj) :
    (usageMarkers obj).head? = some 0 := by
  cases obj with
  | nil => exact absurd (List.prefix_nil.mp h) usemtlKw_ne_nil
  | cons c cs =>
    unfold usageMarkers occurrencesFrom
    rw [if_pos (List.isPrefixOf_iff_prefix.mpr h)]
    rfl

theorem objLoop_head {obj : Text} (h : usemtlKw <+: obj) (fuel k : Nat) :
    (objLoop obj (fuel + 1) (some 0) k).1.head? = some (usageWrite k) := by
  obtain ⟨r, rfl⟩ := h
  have hget : ¬ (usemtlKw ++ r).get? 0 = some '#' := by
    simp [usemtlKw]
  have hpre : usemtlKw.isPrefixOf ((usemtlKw ++ r).drop 0) = true :=
    List.isPrefixOf_iff_prefix.mpr ⟨r, rfl⟩
  unfold objLoop
  simp only
  rw [if_neg hget, if_pos hpre]
  rfl

/-- When the geometry text begins with the usage keyword, the scan starts at
the next occurrence of the keyword. -/
theorem scanLoop_start {obj : Text} (h : usemtlKw <+: obj) {us : List Nat}
    (hus : scanLoop obj (obj.length + 1) (some 0) = some us) :
    (strstrAt obj 1 usemtlKw = none → us = []) ∧
    ∀ p, strstrAt obj 1 usemtlKw = some p →
      0 < p ∧ ∃ rest, us = nameStart obj p :: rest := by
  have hlen : 6 ≤ obj.length := by
    have := h.length_le
    rwa [usemtlKw_length] at this
  obtain ⟨n, hn⟩ : ∃ n, obj.length = n + 1 := ⟨obj.length - 1, by omega⟩
  have hus' : scanLoop obj (n + 1) (strstrAt obj 1 usemtlKw) = some us := by
    rw [hn] at hus
    have := hus
    rw [scanLoop, if_pos rfl] at this
    exact this
  constructor
  · intro hnone
    rw [hnone] at hus'
    simp only [scanLoop, Option.some.injEq] at hus'
    exact hus'.symm
  · intro p hp
    have hp0 : 0 < p := by
      have := (strstrAt_some hp).1
      omega
    rw [hp] at hus'
    rw [scanLoop, if_neg (by omega)] at hus'
    simp only at hus'
    cases hr : scanLoop obj n (strstrAt obj (nameStart obj p + 1) usemtlKw) with
    | none => rw [hr] at hus'; cases hus'
    | some rest =>
      rw [hr] at hus'
      simp only [Option.map_some', Option.some.injEq] at hus'
      exact ⟨hp0, rest, hus'.symm⟩

/-- The first write of `emitAll`, when there is one, is the declaration `mat0`
of the first usage. -/
theorem emitAll_head (obj mtl : Text) (mat : List Nat) (matNum : Nat) (s : Nat)
    (rest : List Nat) (n : Nat) (w : Text)
    (hw : (emitAll obj mtl mat matNum (s :: rest) n).1.head? = some w) :
    ∃ i, search mtl mat (nameAt obj s) matNum = some i ∧ w = declWrite mtl mat n i := by
  unfold emitAll at hw
  by_cases hlen : nameLenAt obj s < 1024
  · rw [if_neg (not_not.mpr hlen)] at hw
    cases hsr : search mtl mat (nameAt obj s) matNum with
    | none => rw [hsr] at hw; cases hw
    | some i =>
      rw [hsr] at hw
      simp only [List.head?_cons, Option.some.injEq] at hw
      exact ⟨i, rfl, hw.symm⟩
  · rw [if_pos hlen] at hw
    cases hw

/-- C13, usage at the start of the buffer. When the geometry text begins with
the usage keyword, the first usage marker is at offset 0 and the material loop
spends its first turn moving to the next occurrence of the keyword, with the
counter still at 0. Without a next occurrence the material output is empty;
with one, at offset `p`, the first declaration written, if any, is `mat0` for
the usage at `p`. The geometry pass, when reached, writes `usemtl mat0` first. -/
theorem usage_at_start_skipped (obj mtl : Text) (h0 : usemtlKw <+: obj) :
    (usageMarkers obj).head? = some 0 ∧
    ∃ mat, matOf mtl = some mat ∧
      mtlPass obj mtl mat =
        emitLoop obj mtl mat (mat.length - 1) obj.length (strstrAt obj 1 usemtlKw) 0 ∧
      (strstrAt obj 1 usemtlKw = none →
        (mtlsort obj mtl).mtlOut = [] ∧ (mtlsort obj mtl).status = Status.completed) ∧
      (∀ p w, strstrAt obj 1 usemtlKw = some p → (mtlsort obj mtl).mtlOut.head? = some w →
        0 < p ∧ ∃ i, search mtl mat (nameAt obj (nameStart obj p)) (mat.length - 1) = some i ∧
          w = declWrite mtl mat 0 i) ∧
      ((mtlsort obj mtl).status = Status.completed →
        (mtlsort obj mtl).objOut.head? = some (usageWrite 0)) := by
  obtain ⟨occ, us, hmat, hus, _, hrun⟩ := mtlsort_eq obj mtl
  obtain ⟨hnone, hsome⟩ := scanLoop_start h0 hus
  have hlen : (occ ++ [mtl.length]).length - 1 = occ.length := by simp
  have hout : (mtlsort obj mtl).mtlOut =
      (emitAll obj mtl (occ ++ [mtl.length]) occ.length us 0).1 := by
    rw [hrun]
    split <;> rfl
  refine ⟨usageMarkers_head h0, occ ++ [mtl.length], hmat, ?_, ?_, ?_, ?_⟩
  · unfold mtlPass
    rw [emitLoop, if_pos rfl]
  · intro hn
    have hnil := hnone hn
    subst hnil
    rw [hrun]
    simp [emitAll]
  · intro p w hp hw
    obtain ⟨hp0, rest, hrest⟩ := hsome p hp
    rw [hout, hrest] at hw
    rw [hlen]
    exact ⟨hp0, emitAll_head obj mtl _ _ _ rest 0 w hw⟩
  · intro hdone
    have hc : (emitAll obj mtl (occ ++ [mtl.length]) occ.length us 0).2 =
        Status.completed := by
      by_contra hne
      rw [if_neg hne] at hrun
      rw [hrun] at hdone
      exact hne hdone
    rw [if_pos hc] at hrun
    rw [hrun]
    exact objLoop_head h0 obj.length 0

/-- C13 on the geometry text `usemtl A`, `v 1`, `usemtl B`. -/
theorem usage_at_start_skipped_witness :
    usemtlKw <+: "usemtl A\nv 1\nusemtl B\n".toList ∧
    ((usageMarkers "usemtl A\nv 1\nusemtl B\n".toList).head? = some 0 ∧
    ∃ mat, matOf mtlAB = some mat ∧
      mtlPass "usemtl A\nv 1\nusemtl B\n".toList mtlAB mat =
        emitLoop "usemtl A\nv 1\nusemtl B\n".toList mtlAB mat (mat.length - 1)
          "usemtl A\nv 1\nusemtl B\n".toList.length
          (strstrAt "usemtl A\nv 1\nusemtl B\n".toList 1 usemtlKw) 0 ∧
      (strstrAt "usemtl A\nv 1\nusemtl B\n".toList 1 usemtlKw = none →
        (mtlsort "usemtl A\nv 1\nusemtl B\n".toList mtlAB).mtlOut = [] ∧
        (mtlsort "usemtl A\nv 1\nusemtl B\n".toList mtlAB).status = Status.completed) ∧
      (∀ p w, strstrAt "usemtl A\nv 1\nusemtl B\n".toList 1 usemtlKw = some p →
        (mtlsort "usemtl A\nv 1\nusemtl B\n".toList mtlAB).mtlOut.head? = some w →
        0 < p ∧ ∃ i, search mtlAB mat
            (nameAt "usemtl A\nv 1\nusemtl B\n".toList
              (nameStart "usemtl A\nv 1\nusemtl B\n".toList p)) (mat.length - 1) = some i ∧
          w = declWrite mtlAB mat 0 i) ∧
      ((mtlsort "usemtl A\nv 1\nusemtl B\n".toList mtlAB).status = Status.completed →
        (mtlsort "usemtl A\nv 1\nusemtl B\n".toList mtlAB).objOut.head? =
          some (usageWrite 0))) :=
  ⟨by decide, usage_at_start_skipped _ _ (by decide)⟩

/-! ## Agreement of the two scans -/

/-- Without an occurrence of the usage keyword after offset 0 the run completes
and nothing is written to the material sink. -/
theorem no_usage_no_declaration (obj mtl : Text)
    (h : strstrAt obj 1 usemtlKw = none) :
    (mtlsort obj mtl).status = Status.completed ∧ (mtlsort obj mtl).mtlOut = [] := by
  obtain ⟨occ, us, _, hus, _, hrun⟩ := mtlsort_eq obj mtl
  have hnil : us = [] := by
    have := hus
    rw [scanLoop, if_pos rfl, h] at this
    cases hl : obj.length <;> rw [hl] at this <;>
      simp only [scanLoop, Option.some.injEq] at this <;> exact this.symm
  subst hnil
  rw [hrun]
  simp [emitAll]

/-! ## The geometry pass at a given address -/

theorem objLoopAt_none (addr : Nat) (obj : Text) (fuel k : Nat) :
    objLoopAt addr obj fuel none k = ([], Status.completed) := by
  cases fuel <;> rfl

/-- The address has no bearing on how the geometry loop ends. -/
theorem objLoopAt_status (addr : Nat) (obj : Text) :
    ∀ (fuel : Nat) (s : Option Nat) (k : Nat),
      (objLoopAt addr obj fuel s k).2 = (objLoop obj fuel s k).2 := by
  intro fuel
  induction fuel with
  | zero =>
    intro s k
    cases s <;> rfl
  | succ fuel ih =>
    intro s k
    cases s with
    | none => rfl
    | some p =>
      unfold objLoopAt objLoop
      simp only
      split
      · exact ih _ _
      · split
        · exact ih _ _
        · exact ih _ _

theorem printPrec_all (p : Int) (t : Text) (h : p < 0 ∨ t.length ≤ p.toNat) :
    printPrec p t = t := by
  unfold printPrec
  split
  · rfl
  · rcases h with h | h
    · omega
    · exact List.take_of_length_le h

/-- Where the precision of a last line is negative, or not smaller than what is
left of the text, the loop at the address `addr` is the loop `objLoop`. -/
theorem objLoopAt_eq_objLoop (addr : Nat) (obj : Text)
    (hp : ∀ s, toInt32 (0 - ((addr + s : Nat) : Int)) < 0 ∨
      (obj.drop s).length ≤ (toInt32 (0 - ((addr + s : Nat) : Int))).toNat) :
    ∀ (fuel : Nat) (s : Option Nat) (k : Nat),
      objLoopAt addr obj fuel s k = objLoop obj fuel s k := by
  intro fuel
  induction fuel with
  | zero =>
    intro s k
    cases s <;> rfl
  | succ fuel ih =>
    intro s k
    cases s with
    | none => rfl
    | some p =>
      have hw : lineWriteAt addr obj p (nextline obj (some p)) =
          lineWrite obj p (nextline obj (some p)) := by
        cases nextline obj (some p) with
        | none => exact printPrec_all _ _ (hp p)
        | some t => rfl
      unfold objLoopAt objLoop
      simp only
      rw [hw, ih, ih]

/-- The status and the material sink do not depend on the address. -/
theorem mtlsortAt_status (addr : Nat) (obj mtl : Text) :
    (mtlsortAt addr obj mtl).status = (mtlsort obj mtl).status ∧
      (mtlsortAt addr obj mtl).mtlOut = (mtlsort obj mtl).mtlOut := by
  unfold mtlsortAt mtlsort
  cases matOf mtl with
  | none => exact ⟨rfl, rfl⟩
  | some mat =>
    simp only
    split
    · exact ⟨objLoopAt_status addr obj _ _ _, rfl⟩
    · exact ⟨rfl, rfl⟩

/-- At an address where the precision of a last line is negative, or not
smaller than what is left of the text, `mtlsortAt` is `mtlsort`. -/
theorem mtlsortAt_eq_mtlsort (addr : Nat) (obj mtl : Text)
    (hp : ∀ s, toInt32 (0 - ((addr + s : Nat) : Int)) < 0 ∨
      (obj.drop s).length ≤ (toInt32 (0 - ((addr + s : Nat) : Int))).toNat) :
    mtlsortAt addr obj mtl = mtlsort obj mtl := by
  unfold mtlsortAt mtlsort objPassAt objPass
  rw [objLoopAt_eq_objLoop addr obj hp]

/-- A completed run at the address `addr` has on its geometry sink the writes
of the geometry pass at that address. -/
theorem mtlsortAt_objOut (addr : Nat) (obj mtl : Text)
    (hdone : (mtlsortAt addr obj mtl).status = Status.completed) :
    (mtlsortAt addr obj mtl).objOut = (objPassAt addr obj).1 := by
  unfold mtlsortAt at hdone ⊢
  cases hm : matOf mtl with
  | none => rw [hm] at hdone; cases hdone
  | some mat =>
    rw [hm] at hdone
    simp only at hdone ⊢
    split
    · rfl
    · rename_i hne
      rw [if_neg hne] at hdone
      exact absurd hdone hne

/-- From a line start on, the bytes written by the geometry loop at the address
`addr` are those of `rewriteGeo` on the lines of the specification. -/
theorem objLoopAt_lines (addr : Nat) (obj : Text) :
    ∀ (fuel s k : Nat), s ≤ obj.length → obj.length + 1 ≤ fuel + s →
      (∀ c, (obj.drop s).head? = some c → isEol c = false) →
      bytes (objLoopAt addr obj fuel (some s) k).1 =
        bytes (rewriteGeo addr obj.length k (geoLines (obj.drop s))) := by
  intro fuel
  induction fuel with
  | zero => intro s k h1 h2; omega
  | succ fuel ih =>
    intro s k hs hf hhead
    by_cases hrest : obj.drop s = []
    · -- the end of the text: one empty write
      have hnl : nextline obj (some s) = none := by rw [nextline_eq, if_pos hrest]
      have hget : ¬ obj.get? s = some '#' := by
        rw [get?_eq_isComment, hrest]; decide
      unfold objLoopAt
      simp only [hnl, hget, ↓reduceIte, hrest]
      rw [show usemtlKw.isPrefixOf ([] : Text) = false by decide]
      simp only [Bool.false_eq_true, ↓reduceIte, objLoopAt_none, lineWriteAt, hrest,
        geoLines_nil, rewriteGeo, bytes]
      unfold printPrec
      split <;> simp
    · have hne : strcspnEol (obj.drop s) ≠ 0 := by
        cases hd : obj.drop s with
        | nil => exact absurd hd hrest
        | cons c cs =>
          have hc := hhead c (by rw [hd]; rfl)
          have := strcspnEol_pos c cs hc
          omega
      have hpos := lineLen_pos hrest
      have hle := lineLen_le (obj.drop s)
      rw [List.length_drop] at hle
      by_cases hend : (obj.drop s).drop (lineLen (obj.drop s)) = []
      · -- the last line of the text
        have hnl : nextline obj (some s) = none := by
          rw [nextline_eq, if_neg hrest, if_neg hne, if_pos hend]
        have hgl : geoLines (obj.drop s) = [obj.drop s] := by
          rw [geoLines_of_ne_nil hrest, hend, geoLines_nil]
          rw [List.drop_eq_nil_iff] at hend
          rw [List.take_of_length_le hend]
        have hoff : obj.length - (obj.drop s).length = s := by
          rw [List.length_drop]; omega
        rw [hgl]
        unfold objLoopAt
        simp only [hnl, objLoopAt_none]
        rw [rewriteGeo]
        by_cases hcom : isComment (obj.drop s) = true
        · rw [if_pos ((get?_eq_isComment obj s).mpr hcom), if_pos hcom]
          rfl
        · rw [if_neg (fun h => hcom ((get?_eq_isComment obj s).mp h)), if_neg hcom]
          by_cases hu : usemtlKw.isPrefixOf (obj.drop s) = true
          · rw [if_pos hu, if_pos hu]
            rfl
          · rw [if_neg hu, if_neg hu, if_pos rfl, hoff]
            rfl
      · -- a line that is followed by another
        have hnl : nextline obj (some s) = some (s + lineLen (obj.drop s)) := by
          rw [nextline_eq, if_neg hrest, if_neg hne, if_neg hend]
        have hlt : s + lineLen (obj.drop s) < obj.length := by
          rw [List.drop_drop] at hend
          by_contra hge
          exact hend (List.drop_eq_nil_iff.mpr (by omega))
        have key : ∀ k', bytes (objLoopAt addr obj fuel
              (some (s + lineLen (obj.drop s))) k').1 =
            bytes (rewriteGeo addr obj.length k'
              (geoLines ((obj.drop s).drop (lineLen (obj.drop s))))) := by
          intro k'
          rw [ih (s + lineLen (obj.drop s)) k' (by omega) (by omega), List.drop_drop]
          intro c hc
          rw [← List.drop_drop] at hc
          have hcn := head_drop_lineLen _ c hc
          cases he : isEol c with
          | false => rfl
          | true => rw [isEol_iscntrl he] at hcn; cases hcn
        have htail : geoLines ((obj.drop s).drop (lineLen (obj.drop s))) ≠ [] := by
          rw [geoLines_of_ne_nil hend]
          exact List.cons_ne_nil _ _
        have hline : lineWriteAt addr obj s (some (s + lineLen (obj.drop s))) =
            (obj.drop s).take (lineLen (obj.drop s)) := by
          simp only [lineWriteAt]
          rw [show s + lineLen (obj.drop s) - s = lineLen (obj.drop s) by omega]
        rw [geoLines_of_ne_nil hrest]
        unfold objLoopAt
        simp only [hnl]
        rw [rewriteGeo, isComment_line hrest, usemtl_line]
        by_cases hcom : isComment (obj.drop s) = true
        · rw [if_pos ((get?_eq_isComment obj s).mpr hcom), if_pos hcom, key k]
        · rw [if_neg (fun h => hcom ((get?_eq_isComment obj s).mp h)), if_neg hcom]
          by_cases hu : usemtlKw.isPrefixOf (obj.drop s) = true
          · rw [if_pos hu, if_pos hu, bytes_cons, bytes_cons, key (k + 1)]
          · rw [if_neg hu, if_neg hu, if_neg htail, bytes_cons, bytes_cons, key k, hline]

/-! ## The claims on comment lines and on a failed run -/

/-- C8 as amended. Let the buffer `obj` be at any address `addr`, let the
geometry text not begin with CR or LF, and let `mtlsort` complete. Every line
that begins with `#` is left out of the geometry output: the bytes written are
those of the other lines, in order, a usage line rewritten and any other line
copied, whole unless it is the last line of the text, of which the first
`(int)(0 - s)` bytes are written when that precision is not negative. -/
theorem comment_lines_left_out (addr : Nat) (obj mtl : Text)
    (hstart : beginsWithEol obj = false)
    (hdone : (mtlsortAt addr obj mtl).status = Status.completed) :
    bytes (mtlsortAt addr obj mtl).objOut =
      bytes (rewriteGeo addr obj.length 0 (geoLines obj)) := by
  rw [mtlsortAt_objOut addr obj mtl hdone]
  have := objLoopAt_lines addr obj (obj.length + 1) 0 0 (Nat.zero_le _) (by omega)
    (by
      intro c hc'
      cases obj with
      | nil => cases hc'
      | cons a as =>
        simp only [List.drop_zero, List.head?_cons, Option.some.injEq] at hc'
        subst hc'
        exact hstart)
  rw [List.drop_zero] at this
  exact this

/-- The amended C8 on a text with a comment line, a usage line and a last line
`f 1 2 3`, the buffer at an address for which the precision of the last line
is 4: the comment line is left out, the usage line is rewritten, and four bytes
of the last line are written. -/
theorem comment_lines_left_out_witness :
    beginsWithEol "#c\nusemtl A\nf 1 2 3\n".toList = false ∧
    (mtlsortAt 93827855548400 "#c\nusemtl A\nf 1 2 3\n".toList mtlAB).status =
      Status.completed ∧
    bytes (mtlsortAt 93827855548400 "#c\nusemtl A\nf 1 2 3\n".toList mtlAB).objOut =
      bytes (rewriteGeo 93827855548400 "#c\nusemtl A\nf 1 2 3\n".toList.length 0
        (geoLines "#c\nusemtl A\nf 1 2 3\n".toList)) ∧
    toInt32 (0 - ((93827855548400 + 12 : Nat) : Int)) = 4 ∧
    bytes (mtlsortAt 93827855548400 "#c\nusemtl A\nf 1 2 3\n".toList mtlAB).objOut =
      "usemtl mat0\nf 1 ".toList :=
  ⟨by decide, by decide, comment_lines_left_out _ _ _ (by decide) (by decide), by decide,
    by decide⟩

/-- C6 fails as stated. With a stream buffer of 4096 bytes, on a geometry text
with eleven usages of `A` and then a usage of `C`, and a material text whose
declaration `A` has a body of 45 lines, the run ends on the assertion of the
search after eleven declarations, 4588 bytes, have been written to the material
sink. One buffer has been flushed by then: the material file cannot be empty,
it holds the first 4096 bytes, which begin with the declaration `mat0` of the
first usage and end inside a later declaration. -/
theorem abort_after_flushed_buffer :
    (mtlsort objElevenUsages mtlLongBody).status = Status.unresolved ∧
    (mtlsort objElevenUsages mtlLongBody).mtlOut.length = 11 ∧
    (bytes (mtlsort objElevenUsages mtlLongBody).mtlOut).length = 4588 ∧
    "newmtl mat0\nKd 1 0 0\n".toList <+:
      (bytes (mtlsort objElevenUsages mtlLongBody).mtlOut).take 4096 ∧
    fileAfterAbort 4096 (mtlsort objElevenUsages mtlLongBody).mtlOut
      ((bytes (mtlsort objElevenUsages mtlLongBody).mtlOut).take 4096) ∧
    ¬ fileAfterAbort 4096 (mtlsort objElevenUsages mtlLongBody).mtlOut [] := by
  have hlen : (bytes (mtlsort objElevenUsages mtlLongBody).mtlOut).length = 4588 := by
    decide!
  refine ⟨by decide!, by decide!, hlen, by decide!, ⟨1, rfl, by omega, by omega⟩, ?_⟩
  rintro ⟨blocks, h1, h2, h3⟩
  have hb : blocks = 1 := by omega
  subst hb
  have := congrArg List.length h1
  rw [List.length_take, hlen] at this
  simp at this

/-- C6 as amended. When `mtlsort` does not complete, nothing has been written
to the geometry output. The `fprintf` calls made on the material sink are one
declaration for each collected usage before the first failing one; of their
bytes the material file holds the flushed stream buffers only: a prefix, which
is empty when those bytes do not fill a buffer. -/
theorem abort_leaves_flushed_buffers (obj mtl : Text) (cap : Nat) (mfile gfile : Text)
    (h : (mtlsort obj mtl).status ≠ Status.completed)
    (hm : fileAfterAbort cap (mtlsort obj mtl).mtlOut mfile)
    (hg : fileAfterAbort cap (mtlsort obj mtl).objOut gfile) :
    gfile = [] ∧ (mtlsort obj mtl).objOut = [] ∧
    mfile <+: bytes (mtlsort obj mtl).mtlOut ∧
    ((bytes (mtlsort obj mtl).mtlOut).length < cap → mfile = []) ∧
    ∃ mat us pre s post, matOf mtl = some mat ∧
      scanLoop obj (obj.length + 1) (some 0) = some us ∧ us = pre ++ s :: post ∧
      usageFails obj mtl mat (mat.length - 1) s ∧
      (∀ u ∈ pre, ¬ usageFails obj mtl mat (mat.length - 1) u) ∧
      (mtlsort obj mtl).mtlOut.length = pre.length ∧
      ∀ k, k < pre.length →
        ∃ i, search mtl mat (nameAt obj (pre.getD k 0)) (mat.length - 1) = some i ∧
          (mtlsort obj mtl).mtlOut[k]? = some (declWrite mtl mat k i) := by
  obtain ⟨hobj, hrest⟩ := abort_writes obj mtl h
  obtain ⟨bm, hm1, hm2, hm3⟩ := hm
  obtain ⟨bg, hg1, _, _⟩ := hg
  refine ⟨?_, hobj, ?_, ?_, hrest⟩
  · rw [hg1, hobj]
    simp [bytes]
  · rw [hm1]
    exact List.take_prefix _ _
  · intro hlt
    cases bm with
    | zero => rw [hm1]; simp
    | succ b =>
      rw [Nat.mul_succ] at hm2
      omega

/-- The amended C6 for a stream buffer of 4096 bytes, on a geometry text whose
second usage fails: the one declaration written does not fill the buffer, and
both files are empty. -/
theorem abort_leaves_flushed_buffers_witness :
    (mtlsort "v 1 2 3\nusemtl A\nusemtl C\n".toList mtlAB).status ≠ Status.completed ∧
    fileAfterAbort 4096 (mtlsort "v 1 2 3\nusemtl A\nusemtl C\n".toList mtlAB).mtlOut [] ∧
    fileAfterAbort 4096 (mtlsort "v 1 2 3\nusemtl A\nusemtl C\n".toList mtlAB).objOut [] ∧
    (([] : Text) = [] ∧ (mtlsort "v 1 2 3\nusemtl A\nusemtl C\n".toList mtlAB).objOut = [] ∧
    ([] : Text) <+: bytes (mtlsort "v 1 2 3\nusemtl A\nusemtl C\n".toList mtlAB).mtlOut ∧
    ((bytes (mtlsort "v 1 2 3\nusemtl A\nusemtl C\n".toList mtlAB).mtlOut).length < 4096 →
      ([] : Text) = []) ∧
    ∃ mat us pre s post, matOf mtlAB = some mat ∧
      scanLoop "v 1 2 3\nusemtl A\nusemtl C\n".toList
        ("v 1 2 3\nusemtl A\nusemtl C\n".toList.length + 1) (some 0) = some us ∧
      us = pre ++ s :: post ∧
      usageFails "v 1 2 3\nusemtl A\nusemtl C\n".toList mtlAB mat (mat.length - 1) s ∧
      (∀ u ∈ pre, ¬ usageFails "v 1 2 3\nusemtl A\nusemtl C\n".toList mtlAB mat
        (mat.length - 1) u) ∧
      (mtlsort "v 1 2 3\nusemtl A\nusemtl C\n".toList mtlAB).mtlOut.length = pre.length ∧
      ∀ k, k < pre.length →
        ∃ i, search mtlAB mat (nameAt "v 1 2 3\nusemtl A\nusemtl C\n".toList (pre.getD k 0))
            (mat.length - 1) = some i ∧
          (mtlsort "v 1 2 3\nusemtl A\nusemtl C\n".toList mtlAB).mtlOut[k]? =
            some (declWrite mtlAB mat k i)) :=
  ⟨by decide, ⟨0, by decide, by decide, by decide⟩, ⟨0, by decide, by decide, by decide⟩,
    abort_leaves_flushed_buffers _ _ 4096 [] [] (by decide)
      ⟨0, by decide, by decide, by decide⟩ ⟨0, by decide, by decide, by decide⟩⟩

end Mtlsort
